import Mathlib

/-!
Verification of the pdf-mangler content-stream engine.

Shallow embedding conventions:
* Python `bytes` are modelled as `List Nat` (each element a byte value `< 256`).
* Python `str` is modelled as `List Nat` of Unicode code points (this also
  represents lone surrogates, which CPython strings allow but Lean `Char`
  does not).
* Python floats are modelled as exact rationals `ℚ`.
* `random.choice` is modelled by an index stream `rnd : Nat → Nat` together
  with a running counter; the element picked from list `l` is
  `l.getD (rnd k % l.length) dflt` (CPython raises on an empty list; every
  list reached by the program is nonempty, so the default is never relevant
  to any theorem).
* `random.uniform a b` is modelled as `a + (b - a) * t` for a sample
  `t ∈ [0, 1]` drawn from a stream.
* Uncaught Python exceptions are modelled with `Option`/`Except`: a `none`
  or `.error` result is a crash of the corresponding Python call.
-/

namespace PdfMangler

/-- ASCII byte list of a string (used for the operator mnemonics, which are
all ASCII). -/
def strBytes (s : String) : List Nat := s.data.map Char.toNat

/-- `pdf_ops.ALL_OPS`: the fixed operator mnemonic vocabulary. -/
def allOps : List (List Nat) :=
  [strBytes "b", strBytes "B", strBytes "b*", strBytes "B*", strBytes "BDC",
   strBytes "BI", strBytes "BMC", strBytes "BT", strBytes "BX", strBytes "c",
   strBytes "cm", strBytes "CS", strBytes "cs", strBytes "d", strBytes "d0",
   strBytes "d1", strBytes "Do", strBytes "DP", strBytes "EI", strBytes "EMC",
   strBytes "ET", strBytes "EX", strBytes "f", strBytes "F", strBytes "f*",
   strBytes "G", strBytes "g", strBytes "gs", strBytes "h", strBytes "i",
   strBytes "ID", strBytes "j", strBytes "J", strBytes "K", strBytes "k",
   strBytes "l", strBytes "m", strBytes "M", strBytes "MP", strBytes "n",
   strBytes "q", strBytes "Q", strBytes "re", strBytes "RG", strBytes "rg",
   strBytes "ri", strBytes "s", strBytes "S", strBytes "SC", strBytes "sc",
   strBytes "SCN", strBytes "scn", strBytes "sh", strBytes "T*", strBytes "Tc",
   strBytes "Td", strBytes "TD", strBytes "Tf", strBytes "Tj", strBytes "TJ",
   strBytes "TL", strBytes "Tm", strBytes "Tr", strBytes "Ts", strBytes "Tw",
   strBytes "Tz", strBytes "v", strBytes "w", strBytes "W", strBytes "W*",
   strBytes "y", strBytes "'", strBytes "\""]

/-- `pdf_ops.WHITESPACE` (byte values). -/
def whitespaceB : List Nat := [0x00, 0x09, 0x0A, 0x0C, 0x0D, 0x20]

/-- `pdf_ops.DELIMITERS` (byte values). -/
def delimitersB : List Nat :=
  [0x28, 0x29, 0x3C, 0x3E, 0x5B, 0x5D, 0x7B, 0x7D, 0x2F, 0x25]

/-- `pdf_ops.TEXT_SHOW_OPS`. -/
def textShowOps : List (List Nat) :=
  [strBytes "Tj", strBytes "TJ", strBytes "'", strBytes "\""]

/-- `pdf_ops.PATH_CONSTRUCTION_OPS`. -/
def pathConstructionOps : List (List Nat) :=
  [strBytes "m", strBytes "l", strBytes "c", strBytes "v", strBytes "y",
   strBytes "re"]

/-- `pdf_ops.CLIPPING_PATH_OPS`. -/
def clippingPathOps : List (List Nat) := [strBytes "W", strBytes "W*"]

/-- `pdf_ops.FONT_CHANGE`. -/
def fontChangeOp : List Nat := strBytes "Tf"

/-! ## The content-stream scanner (`Mangler.mangle_stream`)

The scanner is embedded generically over the per-token transform
`tf : σ → operands → operator → Option (σ × operands)`; `Mangler.mangle_stream`
instantiates `σ` and `tf` with the actual dispatch on the operator class.  A
`none` result of `tf` models an uncaught Python exception inside the
transform. -/

/-- The mutable locals of the `while` loop in `Mangler.mangle_stream`. -/
structure ScanState (σ : Type) where
  command : List Nat
  prevDelim : Nat
  cPos : Nat
  isComment : Bool
  isStringLit : Bool
  out : List Nat
  fstate : σ

/-- Final part of each loop iteration: `command += next_byte; c_pos += 1`
(this happens on every path through the loop body). -/
def scanPush {σ : Type} (st : ScanState σ) (b : Nat) : ScanState σ :=
  { st with command := st.command ++ [b], cPos := st.cPos + 1 }

/-- Body of one loop iteration of `Mangler.mangle_stream`, after the
comment/string-literal flags have been updated to `isC`/`isS`. -/
def scanStepAux {σ : Type}
    (tf : σ → List Nat → List Nat → Option (σ × List Nat))
    (st : ScanState σ) (b : Nat) (isC isS : Bool) : Option (ScanState σ) :=
  if isC then
    -- comment: ignore everything until the end of the line
    if b = 0x0A ∨ b = 0x0D ∨ b = 0x0C then
      some (scanPush { st with isComment := false, isStringLit := isS,
                               prevDelim := st.cPos + 1 } b)
    else
      some (scanPush { st with isComment := true, isStringLit := isS } b)
  else if isS then
    -- string literal: ignore everything until the closing parenthesis
    if b = 0x29 then
      some (scanPush { st with isStringLit := false,
                               prevDelim := st.cPos + 1 } b)
    else
      some (scanPush { st with isStringLit := true } b)
  else if b ∈ whitespaceB ∨ b ∈ delimitersB then
    -- delimiter: check whether the bytes since the previous delimiter form a
    -- recognized operator mnemonic
    if st.command.drop st.prevDelim ∈ allOps then
      match tf st.fstate (st.command.take st.prevDelim)
          (st.command.drop st.prevDelim) with
      | none => none
      | some (s', operands') =>
        -- `new_b.write(operands + op)` then reset the command accumulator
        some (scanPush
          { st with
            out := st.out ++ operands' ++ st.command.drop st.prevDelim,
            command := [], cPos := 0, prevDelim := 1, fstate := s' } b)
    else
      some (scanPush { st with prevDelim := st.cPos + 1 } b)
  else
    some (scanPush st b)

/-- One iteration of the `while next_byte:` loop of `Mangler.mangle_stream`,
processing byte `b`.  A `none` result is an uncaught exception raised by the
per-token transform.
`if next_byte == b"%": is_comment = True` / `elif next_byte == b"(": ...`
(note the elif: a `(` sets the string-literal flag even while a comment is
being skipped, exactly as the source does). -/
def scanStep {σ : Type} (tf : σ → List Nat → List Nat → Option (σ × List Nat))
    (st : ScanState σ) (b : Nat) : Option (ScanState σ) :=
  scanStepAux tf st b (if b = 0x25 then true else st.isComment)
    (if b ≠ 0x25 ∧ b = 0x28 then true else st.isStringLit)

/-- Initial loop state of `Mangler.mangle_stream`. -/
def scanInit {σ : Type} (s0 : σ) : ScanState σ :=
  { command := [], prevDelim := 0, cPos := 0, isComment := false,
    isStringLit := false, out := [], fstate := s0 }

/-- Run the scanner loop over the whole input. -/
def scanRun {σ : Type} (tf : σ → List Nat → List Nat → Option (σ × List Nat))
    (st : ScanState σ) (input : List Nat) : Option (ScanState σ) :=
  input.foldlM (scanStep tf) st

/-- `Mangler.mangle_stream`, generic in the per-token transform: scan the
stream, rewriting each recognized `(operands, operator)` token with `tf`, and
flush the trailing accumulated bytes at end of input
(`new_b.write(command)`). -/
def mangleStreamG {σ : Type}
    (tf : σ → List Nat → List Nat → Option (σ × List Nat)) (s0 : σ)
    (input : List Nat) : Option (List Nat) :=
  (scanRun tf (scanInit s0) input).map fun st => st.out ++ st.command

/-- Characterization of a successful scanner step: either the byte is simply
accumulated (possibly updating bookkeeping fields), or a token is emitted:
the transformed operands and the operator are appended to the output and the
accumulator is reset to just the current byte. -/
theorem scanStep_some {σ : Type}
    {tf : σ → List Nat → List Nat → Option (σ × List Nat)}
    {st st' : ScanState σ} {b : Nat} (h : scanStep tf st b = some st') :
    (st'.out = st.out ∧ st'.command = st.command ++ [b]) ∨
    (∃ s' o', tf st.fstate (st.command.take st.prevDelim)
        (st.command.drop st.prevDelim) = some (s', o') ∧
      st'.out = st.out ++ o' ++ st.command.drop st.prevDelim ∧
      st'.command = [b]) := by
  have aux : ∀ (isC isS : Bool), scanStepAux tf st b isC isS = some st' →
      (st'.out = st.out ∧ st'.command = st.command ++ [b]) ∨
      (∃ s' o', tf st.fstate (st.command.take st.prevDelim)
          (st.command.drop st.prevDelim) = some (s', o') ∧
        st'.out = st.out ++ o' ++ st.command.drop st.prevDelim ∧
        st'.command = [b]) := by
    intro isC isS haux
    unfold scanStepAux at haux
    split at haux
    · -- comment state
      split at haux <;> (cases Option.some.inj haux; left; exact ⟨rfl, rfl⟩)
    · split at haux
      · -- string-literal state
        split at haux <;>
          (cases Option.some.inj haux; left; exact ⟨rfl, rfl⟩)
      · split at haux
        · -- whitespace/delimiter byte
          split at haux
          · -- recognized operator: split on the transform's result
            split at haux
            · exact Option.noConfusion haux
            · next s' o' htf =>
                cases Option.some.inj haux
                exact Or.inr ⟨s', o', htf, rfl, rfl⟩
          · cases Option.some.inj haux; left; exact ⟨rfl, rfl⟩
        · cases Option.some.inj haux; left; exact ⟨rfl, rfl⟩
  exact aux _ _ h

/-- Accounting invariant: each successful step appends exactly the processed
byte to `out ++ command`, provided the transform returns its operands
unchanged. -/
theorem scanStep_out_command {σ : Type}
    {tf : σ → List Nat → List Nat → Option (σ × List Nat)}
    (hid : ∀ s o p s' o', tf s o p = some (s', o') → o' = o)
    {st st' : ScanState σ} {b : Nat} (h : scanStep tf st b = some st') :
    st'.out ++ st'.command = st.out ++ st.command ++ [b] := by
  rcases scanStep_some h with ⟨h1, h2⟩ | ⟨s', o', htf, h1, h2⟩
  · rw [h1, h2, List.append_assoc]
  · rw [h1, h2, hid _ _ _ _ _ htf]
    simp [List.append_assoc, List.take_append_drop]

/-- Length invariant: each successful step grows `out ++ command` by exactly
one byte, provided the transform preserves the operand byte length. -/
theorem scanStep_length {σ : Type}
    {tf : σ → List Nat → List Nat → Option (σ × List Nat)}
    (hlen : ∀ s o p s' o', tf s o p = some (s', o') → o'.length = o.length)
    {st st' : ScanState σ} {b : Nat} (h : scanStep tf st b = some st') :
    st'.out.length + st'.command.length
      = st.out.length + st.command.length + 1 := by
  rcases scanStep_some h with ⟨h1, h2⟩ | ⟨s', o', htf, h1, h2⟩
  · simp [h1, h2]; omega
  · have : o'.length = (st.command.take st.prevDelim).length :=
      hlen _ _ _ _ _ htf
    simp only [h1, h2, List.length_append, List.length_singleton, this]
    have := List.take_append_drop st.prevDelim st.command
    have hc : (st.command.take st.prevDelim).length
        + (st.command.drop st.prevDelim).length = st.command.length := by
      rw [← List.length_append, this]
    omega

/-- Run-level accounting: an identity-like transform makes the scanner copy
the input verbatim into `out ++ command`. -/
theorem scanRun_out_command {σ : Type}
    {tf : σ → List Nat → List Nat → Option (σ × List Nat)}
    (hid : ∀ s o p s' o', tf s o p = some (s', o') → o' = o) :
    ∀ (input : List Nat) (st st' : ScanState σ),
      scanRun tf st input = some st' →
      st'.out ++ st'.command = st.out ++ st.command ++ input := by
  intro input
  induction input with
  | nil => intro st st' h; cases h; simp [scanRun]
  | cons b rest ih =>
    intro st st' h
    rw [scanRun, List.foldlM_cons] at h
    rcases hstep : scanStep tf st b with _ | st1 <;> rw [hstep] at h
    · exact absurd h (by simp)
    · have := ih st1 st' h
      rw [this, scanStep_out_command hid hstep]
      simp

/-- Run-level length accounting for a length-preserving transform. -/
theorem scanRun_length {σ : Type}
    {tf : σ → List Nat → List Nat → Option (σ × List Nat)}
    (hlen : ∀ s o p s' o', tf s o p = some (s', o') → o'.length = o.length) :
    ∀ (input : List Nat) (st st' : ScanState σ),
      scanRun tf st input = some st' →
      st'.out.length + st'.command.length
        = st.out.length + st.command.length + input.length := by
  intro input
  induction input with
  | nil => intro st st' h; cases h; simp [scanRun]
  | cons b rest ih =>
    intro st st' h
    rw [scanRun, List.foldlM_cons] at h
    rcases hstep : scanStep tf st b with _ | st1 <;> rw [hstep] at h
    · exact absurd h (by simp)
    · have := ih st1 st' h
      rw [this, scanStep_length hlen hstep]
      simp; omega

/-- If every rewrite returns the operand bytes unchanged, a completed
`mangle_stream` run reproduces the input stream byte for byte. -/
theorem mangleStreamG_id {σ : Type}
    {tf : σ → List Nat → List Nat → Option (σ × List Nat)}
    (hid : ∀ s o p s' o', tf s o p = some (s', o') → o' = o)
    (s0 : σ) (input out : List Nat)
    (h : mangleStreamG tf s0 input = some out) : out = input := by
  rcases hrun : scanRun tf (scanInit s0) input with _ | st' <;>
    rw [mangleStreamG, hrun] at h
  · exact absurd h (by simp)
  · cases h
    have := scanRun_out_command hid input _ _ hrun
    simpa [scanInit] using this

/-- If every rewrite preserves the operand byte length, a completed
`mangle_stream` run preserves the total stream byte length. -/
theorem mangleStreamG_length {σ : Type}
    {tf : σ → List Nat → List Nat → Option (σ × List Nat)}
    (hlen : ∀ s o p s' o', tf s o p = some (s', o') → o'.length = o.length)
    (s0 : σ) (input out : List Nat)
    (h : mangleStreamG tf s0 input = some out) : out.length = input.length := by
  rcases hrun : scanRun tf (scanInit s0) input with _ | st' <;>
    rw [mangleStreamG, hrun] at h
  · exact absurd h (by simp)
  · cases h
    have := scanRun_length hlen input _ _ hrun
    simpa [scanInit] using this

/-! ### Token stream of the scanner.

Instrumenting the scanner with a transform that records each emitted
`(operand_bytes, operator)` token (and rewrites nothing) yields the token
decomposition of a content stream. -/

/-- Recording transform: collect each token, leave the operands unchanged. -/
def recordTf : List (List Nat × List Nat) → List Nat → List Nat →
    Option (List (List Nat × List Nat) × List Nat) :=
  fun acc o p => some (acc ++ [(o, p)], o)

/-- The recording transform never fails, so the instrumented scanner always
completes. -/
theorem scanStep_record_total (st : ScanState (List (List Nat × List Nat)))
    (b : Nat) : ∃ st', scanStep recordTf st b = some st' := by
  have aux : ∀ (isC isS : Bool),
      ∃ st', scanStepAux recordTf st b isC isS = some st' := by
    intro isC isS
    unfold scanStepAux
    split
    · split <;> exact ⟨_, rfl⟩
    · split
      · split <;> exact ⟨_, rfl⟩
      · split
        · split
          · exact ⟨_, rfl⟩
          · exact ⟨_, rfl⟩
        · exact ⟨_, rfl⟩
  exact aux _ _

/-- Step characterization for the recording transform: the recorded token
list either stays put, or grows by exactly the emitted token. -/
theorem scanStep_record {st st' : ScanState (List (List Nat × List Nat))}
    {b : Nat} (h : scanStep recordTf st b = some st') :
    (st'.out = st.out ∧ st'.command = st.command ++ [b] ∧
      st'.fstate = st.fstate) ∨
    (st'.out = st.out ++ st.command.take st.prevDelim
        ++ st.command.drop st.prevDelim ∧
      st'.command = [b] ∧
      st'.fstate = st.fstate ++ [(st.command.take st.prevDelim,
        st.command.drop st.prevDelim)]) := by
  have aux : ∀ (isC isS : Bool), scanStepAux recordTf st b isC isS = some st' →
      (st'.out = st.out ∧ st'.command = st.command ++ [b] ∧
        st'.fstate = st.fstate) ∨
      (st'.out = st.out ++ st.command.take st.prevDelim
          ++ st.command.drop st.prevDelim ∧
        st'.command = [b] ∧
        st'.fstate = st.fstate ++ [(st.command.take st.prevDelim,
          st.command.drop st.prevDelim)]) := by
    intro isC isS haux
    unfold scanStepAux at haux
    split at haux
    · split at haux <;> (cases Option.some.inj haux; left; exact ⟨rfl, rfl, rfl⟩)
    · split at haux
      · split at haux <;>
          (cases Option.some.inj haux; left; exact ⟨rfl, rfl, rfl⟩)
      · split at haux
        · split at haux
          · split at haux
            · exact Option.noConfusion haux
            · next s' o' htf =>
                cases Option.some.inj haux
                cases Option.some.inj htf
                exact Or.inr ⟨rfl, rfl, rfl⟩
          · cases Option.some.inj haux; left; exact ⟨rfl, rfl, rfl⟩
        · cases Option.some.inj haux; left; exact ⟨rfl, rfl, rfl⟩
  exact aux _ _ h

/-- The sequence of `(operand_bytes, operator)` tokens the scanner emits for
`input`, together with the trailing operator-less bytes flushed at end of
input. -/
def scanTokens (input : List Nat) :
    List (List Nat × List Nat) × List Nat :=
  match scanRun recordTf (scanInit []) input with
  | some st => (st.fstate, st.command)
  | none => ([], [])  -- unreachable: the recording transform never fails

/-- Concatenation of a token list back into bytes. -/
def tokensJoin (toks : List (List Nat × List Nat)) : List Nat :=
  (toks.map fun t => t.1 ++ t.2).flatten

theorem tokensJoin_append (a b : List (List Nat × List Nat)) :
    tokensJoin (a ++ b) = tokensJoin a ++ tokensJoin b := by
  simp [tokensJoin]

/-- Invariant of the recorder run: the written output always equals the
concatenation of the tokens recorded so far. -/
theorem scanRun_record_inv :
    ∀ (input : List Nat) (st st' : ScanState (List (List Nat × List Nat))),
      scanRun recordTf st input = some st' →
      st.out = tokensJoin st.fstate →
      st'.out = tokensJoin st'.fstate := by
  intro input
  induction input with
  | nil => intro st st' h hi; cases h; exact hi
  | cons b rest ih =>
    intro st st' h hi
    rw [scanRun, List.foldlM_cons] at h
    rcases hstep : scanStep recordTf st b with _ | st1 <;> rw [hstep] at h
    · exact absurd h (by simp)
    · refine ih st1 st' h ?_
      rcases scanStep_record hstep with ⟨h1, _, h3⟩ | ⟨h1, _, h3⟩
      · rw [h1, h3, hi]
      · rw [h1, h3, tokensJoin_append, hi, tokensJoin]
        simp [tokensJoin]

/-- The recorder run always completes. -/
theorem scanRun_record_total :
    ∀ (input : List Nat) (st : ScanState (List (List Nat × List Nat))),
      ∃ st', scanRun recordTf st input = some st' := by
  intro input
  induction input with
  | nil => intro st; exact ⟨st, rfl⟩
  | cons b rest ih =>
    intro st
    obtain ⟨st1, h1⟩ := scanStep_record_total st b
    obtain ⟨st', h'⟩ := ih st1
    exact ⟨st', by rw [scanRun, List.foldlM_cons, h1]; exact h'⟩

/-- Coverage: the emitted tokens, in order, concatenated with the flushed
tail reconstruct the input stream exactly — no gaps, nothing reordered. -/
theorem scanTokens_cover (input : List Nat) :
    tokensJoin (scanTokens input).1 ++ (scanTokens input).2 = input := by
  obtain ⟨st', h⟩ := scanRun_record_total input (scanInit [])
  have hid : ∀ (s : List (List Nat × List Nat)) o p s' o',
      recordTf s o p = some (s', o') → o' = o := by
    intro s o p s' o' he
    cases Option.some.inj he; rfl
  have hcover := scanRun_out_command hid input _ _ h
  have hinv := scanRun_record_inv input _ _ h (by simp [scanInit, tokensJoin])
  rw [scanTokens, h]
  dsimp only
  rw [← hinv]
  simpa [scanInit] using hcover

/-! ## Glyph/category machinery (`text_utils.py`)

Python strings are modelled as lists of Unicode code points (`List Nat`);
this also represents the lone surrogates CPython strings allow.  The external
`unicodedata.category` function is a parameter `ucat : Nat → Cat`; theorems
that depend on concrete category values of the baseline Latin characters
take the (true) facts about them as hypotheses. -/

/-- A Unicode general-category code, e.g. `('L','u')` for `"Lu"`. -/
abbrev Cat := Char × Char

/-- A Python string value (list of code points). -/
abbrev Glyph := List Nat

/-- `PASS_CATS = set("PMZCS")`: first letters of pass-through categories. -/
def passCats : List Char := ['P', 'M', 'Z', 'C', 'S']

/-- `unicodedata.category(char)` as called by `categorize_glyphs`: on a
string that is not a single character it raises `TypeError`, which the
source catches and replaces by `"Cs"`. -/
def catOf (ucat : Nat → Cat) : Glyph → Cat
  | [c] => ucat c
  | _ => ('C', 's')

/-- Python `dict` lookup on an association list. -/
def alookup {α β : Type} [DecidableEq α] : List (α × β) → α → Option β
  | [], _ => none
  | (k, v) :: rest, key => if k = key then some v else alookup rest key

/-- `cats[cat] += [char]` / `cats[cat] = [char]`: append a glyph to the list
stored under a category key, creating the key if absent (dict insertion
order preserved). -/
def dictAppendGlyph : List (Cat × List Glyph) → Cat → Glyph →
    List (Cat × List Glyph)
  | [], c, g => [(c, [g])]
  | (k, v) :: rest, c, g =>
    if k = c then (k, v ++ [g]) :: rest
    else (k, v) :: dictAppendGlyph rest c g

/-- The hard-coded `LATIN_1["default"]` table: uppercase/lowercase ASCII
letters and ASCII digits, as single-character glyphs. -/
def latinDefault : List (Cat × List Glyph) :=
  [(('L', 'u'), (List.range' 65 26).map fun c => [c]),
   (('L', 'l'), (List.range' 97 26).map fun c => [c]),
   (('N', 'd'), (List.range' 48 10).map fun c => [c])]

/-- A per-font character-category map (the dict built by
`categorize_glyphs`, plus the `ToUnicode`/`FromUnicode` keys that
`map_unicode` adds). -/
structure CharCats where
  pools : List (Cat × List Glyph)
  dflt : List (Cat × List Glyph)
  -- `none` models absence of the `"ToUnicode"`/`"FromUnicode"` dict keys
  -- (only `map_unicode` adds them)
  toUni : Option (List (List Nat × Glyph)) := none
  fromUni : Option (List (Glyph × List Nat)) := none
  deriving DecidableEq

/-- The grouping loop of `categorize_glyphs` (also used almost verbatim when
the module builds `LATIN_1`): skip pass-through categories, group the rest
by category in encounter order. -/
def groupByCat (ucat : Nat → Cat) (glyphs : List Glyph) :
    List (Cat × List Glyph) :=
  glyphs.foldl
    (fun acc g =>
      if (catOf ucat g).1 ∈ passCats then acc
      else dictAppendGlyph acc (catOf ucat g) g)
    []

/-- `categorize_glyphs`: group the glyphs by category, then compute the
`default` subset as the intersection of each pool with the hard-coded
baseline Latin pools (CPython materializes the intersection through `set`,
whose iteration order is unspecified; the embedding uses `filter`, which
agrees with it up to the order of the resulting list — no theorem below
depends on the order of a `default` pool). -/
def categorizeGlyphs (ucat : Nat → Cat) (glyphs : List Glyph) : CharCats :=
  let pools := groupByCat ucat glyphs
  { pools := pools
    dflt := pools.filterMap fun kv =>
      match alookup latinDefault kv.1 with
      | none => none
      | some dp =>
        let isect := kv.2.filter fun g => g ∈ dp
        if isect.isEmpty then none else some (kv.1, isect) }

/-- `map_numeric_range`: each code point in `[first, last]` is a
one-character glyph. -/
def mapNumericRange (ucat : Nat → Cat) (first last : Nat) : CharCats :=
  categorizeGlyphs ucat ((List.range' first (last + 1 - first)).map fun i => [i])

/-- Modelled from the spec: the baseline Latin glyph set (`LATIN_1`) is read
from the data file `fonts/adobe-latin-1.txt`, which is not part of the
sources under verification; the file's code points are therefore a parameter
`srcChars`.  The grouping loop and the hard-coded `default` overwrite are
the source's. -/
def latin1 (ucat : Nat → Cat) (srcChars : List Nat) : CharCats :=
  { pools := groupByCat ucat (srcChars.map fun c => [c])
    dflt := latinDefault }

/-- `random.choice` with an explicit index: element `i % len` of the list.
CPython raises on an empty list; every list this program passes is nonempty,
so the `[]` default never matters. -/
def randomChoice (l : List Glyph) (i : Nat) : Glyph := l.getD (i % l.length) []

/-- Does `replace_text` draw a random substitute for code point `c` (as
opposed to passing it through)?  This is exactly "not a pass-through
category, and some substitution pool is available". -/
def substitutable (ucat : Nat → Cat) (m : CharCats) (c : Nat) : Bool :=
  if (ucat c).1 ∈ passCats then false
  else (alookup m.pools (ucat c)).isSome
    || (alookup latinDefault (ucat c)).isSome

/-- The block of output `replace_text` produces for one input code point
`c`, when the random counter stands at `k`: the per-character body of the
loop in `replace_text`. -/
def subChar (ucat : Nat → Cat) (m : CharCats) (rnd : Nat → Nat) (c k : Nat) :
    Glyph :=
  if (ucat c).1 ∈ passCats then [c]
  else
    match alookup m.pools (ucat c) with
    | some pool =>
      (match alookup m.dflt (ucat c) with
       | some dpool =>
         if [c] ∈ dpool then randomChoice dpool (rnd k)
         else randomChoice pool (rnd k)
       | none => randomChoice pool (rnd k))
    | none =>
      match alookup latinDefault (ucat c) with
      | some dpool => randomChoice dpool (rnd k)
      | none => [c]  -- unknown category: warn and pass through

/-- `replace_text`, with an explicit random-index stream and counter;
returns the output string and the advanced counter. -/
def replaceText (ucat : Nat → Cat) (m : CharCats) (rnd : Nat → Nat) :
    List Nat → Nat → List Nat × Nat
  | [], k => ([], k)
  | c :: rest, k =>
    let blk := subChar ucat m rnd c k
    let k1 := if substitutable ucat m c then k + 1 else k
    let (r, k') := replaceText ucat m rnd rest k1
    (blk ++ r, k')

/-- The per-character decomposition of a `replace_text` run: each input code
point paired with the output block it contributes. -/
def subPieces (ucat : Nat → Cat) (m : CharCats) (rnd : Nat → Nat) :
    List Nat → Nat → List (Nat × Glyph)
  | [], _ => []
  | c :: rest, k =>
    (c, subChar ucat m rnd c k) ::
      subPieces ucat m rnd rest (if substitutable ucat m c then k + 1 else k)

theorem replaceText_eq_subPieces (ucat : Nat → Cat) (m : CharCats)
    (rnd : Nat → Nat) :
    ∀ (text : List Nat) (k : Nat),
      (replaceText ucat m rnd text k).1
        = ((subPieces ucat m rnd text k).map Prod.snd).flatten := by
  intro text
  induction text with
  | nil => intro k; rfl
  | cons c rest ih =>
    intro k
    simp only [replaceText, subPieces, List.map_cons, List.flatten_cons, ← ih]

/-! ### Invariants of the category maps -/

/-- Invariant of a pool table: every entry groups a non-pass-through
category with a nonempty list of glyphs of exactly that category. -/
def PoolsOK (ucat : Nat → Cat) (l : List (Cat × List Glyph)) : Prop :=
  ∀ p ∈ l, p.1.1 ∉ passCats ∧ p.2 ≠ [] ∧ ∀ g ∈ p.2, catOf ucat g = p.1

/-- Well-formed category map: both the category pools and the `default`
subsets satisfy `PoolsOK`. -/
def WellCat (ucat : Nat → Cat) (m : CharCats) : Prop :=
  PoolsOK ucat m.pools ∧ PoolsOK ucat m.dflt

/-- The true Unicode general categories of the baseline Latin characters
(ASCII letters and digits), taken as hypotheses wherever the hard-coded
`LATIN_1["default"]` table is used. -/
def latinFacts (ucat : Nat → Cat) : Prop :=
  (∀ c ∈ List.range' 65 26, ucat c = ('L', 'u')) ∧
  (∀ c ∈ List.range' 97 26, ucat c = ('L', 'l')) ∧
  (∀ c ∈ List.range' 48 10, ucat c = ('N', 'd'))

instance (ucat : Nat → Cat) : Decidable (latinFacts ucat) := by
  rw [latinFacts]
  infer_instance

theorem alookup_mem {α β : Type} [DecidableEq α] :
    ∀ {l : List (α × β)} {k : α} {v : β}, alookup l k = some v → (k, v) ∈ l := by
  intro l
  induction l with
  | nil => intro k v h; exact Option.noConfusion h
  | cons p rest ih =>
    intro k v h
    obtain ⟨pk, pv⟩ := p
    rw [alookup] at h
    split at h
    · cases Option.some.inj h
      next heq => rw [heq]; exact List.mem_cons_self _ _
    · exact List.mem_cons_of_mem _ (ih h)

theorem randomChoice_mem {l : List Glyph} (h : l ≠ []) (i : Nat) :
    randomChoice l i ∈ l := by
  have hlen : 0 < l.length := List.length_pos.mpr h
  have hlt : i % l.length < l.length := Nat.mod_lt _ hlen
  rw [randomChoice, List.getD_eq_getElem l [] hlt]
  exact List.getElem_mem hlt

/-- A glyph of a non-pass-through category is a single code point of that
category (a multi-code-point glyph would have been classified `Cs`). -/
theorem single_of_catOf {ucat : Nat → Cat} {g : Glyph} {cat : Cat}
    (hc : catOf ucat g = cat) (hp : cat.1 ∉ passCats) :
    ∃ d, g = [d] ∧ ucat d = cat := by
  match g with
  | [] => exact absurd (hc ▸ (by decide : (('C', 's') : Cat).1 ∈ passCats)) hp
  | [d] => exact ⟨d, rfl, hc⟩
  | d1 :: d2 :: rest =>
    exact absurd (hc ▸ (by decide : (('C', 's') : Cat).1 ∈ passCats)) hp

theorem latinDefault_ok {ucat : Nat → Cat} (hf : latinFacts ucat) :
    PoolsOK ucat latinDefault := by
  obtain ⟨hu, hl, hd⟩ := hf
  intro p hp
  simp only [latinDefault, List.mem_cons, List.not_mem_nil, or_false]
    at hp
  rcases hp with rfl | rfl | rfl
  · refine ⟨by decide, by decide, ?_⟩
    intro g hg
    obtain ⟨c, hc, rfl⟩ := List.mem_map.mp hg
    exact hu c hc
  · refine ⟨by decide, by decide, ?_⟩
    intro g hg
    obtain ⟨c, hc, rfl⟩ := List.mem_map.mp hg
    exact hl c hc
  · refine ⟨by decide, by decide, ?_⟩
    intro g hg
    obtain ⟨c, hc, rfl⟩ := List.mem_map.mp hg
    exact hd c hc

theorem dictAppendGlyph_ok {ucat : Nat → Cat} {c : Cat} {g : Glyph} :
    ∀ {l : List (Cat × List Glyph)}, PoolsOK ucat l → c.1 ∉ passCats →
      catOf ucat g = c → PoolsOK ucat (dictAppendGlyph l c g) := by
  intro l
  induction l with
  | nil =>
    intro _ hc hg p hp
    simp only [dictAppendGlyph, List.mem_singleton] at hp
    subst hp
    exact ⟨hc, by simp, by intro g' hg'; simp at hg'; rw [hg']; exact hg⟩
  | cons q rest ih =>
    intro hl hc hg p hp
    obtain ⟨qk, qv⟩ := q
    by_cases heq : qk = c
    · rw [dictAppendGlyph, if_pos heq] at hp
      rcases List.mem_cons.mp hp with hp | hp
      · subst hp
        obtain ⟨h1, h2, h3⟩ := hl (qk, qv) (List.mem_cons_self _ _)
        refine ⟨h1, by simp, ?_⟩
        intro g' hg'
        rcases List.mem_append.mp hg' with hg' | hg'
        · exact h3 g' hg'
        · simp at hg'; rw [hg', hg, heq]
      · exact hl p (List.mem_cons_of_mem _ hp)
    · rw [dictAppendGlyph, if_neg heq] at hp
      rcases List.mem_cons.mp hp with hp | hp
      · subst hp; exact hl (qk, qv) (List.mem_cons_self _ _)
      · exact ih (fun r hr => hl r (List.mem_cons_of_mem _ hr)) hc hg p hp

theorem groupByCat_ok (ucat : Nat → Cat) (glyphs : List Glyph) :
    PoolsOK ucat (groupByCat ucat glyphs) := by
  rw [groupByCat]
  suffices h : ∀ acc, PoolsOK ucat acc →
      PoolsOK ucat (glyphs.foldl
        (fun acc g =>
          if (catOf ucat g).1 ∈ passCats then acc
          else dictAppendGlyph acc (catOf ucat g) g)
        acc) by
    exact h [] (fun p hp => absurd hp (List.not_mem_nil p))
  induction glyphs with
  | nil => intro acc hacc; exact hacc
  | cons g rest ih =>
    intro acc hacc
    rw [List.foldl_cons]
    refine ih _ ?_
    split
    · exact hacc
    · next hpass => exact dictAppendGlyph_ok hacc hpass rfl

theorem categorizeGlyphs_wellCat (ucat : Nat → Cat) (glyphs : List Glyph) :
    WellCat ucat (categorizeGlyphs ucat glyphs) := by
  constructor
  · exact groupByCat_ok ucat glyphs
  · intro p hp
    simp only [categorizeGlyphs] at hp
    obtain ⟨kv, hkv, hf⟩ := List.mem_filterMap.mp hp
    split at hf
    · exact Option.noConfusion hf
    · split at hf
      · exact Option.noConfusion hf
      · next hne =>
        cases Option.some.inj hf
        obtain ⟨h1, _, h3⟩ := groupByCat_ok ucat glyphs kv hkv
        refine ⟨h1, by simpa using hne, ?_⟩
        intro g hg
        exact h3 g (List.mem_of_mem_filter hg)

theorem mapNumericRange_wellCat (ucat : Nat → Cat) (first last : Nat) :
    WellCat ucat (mapNumericRange ucat first last) :=
  categorizeGlyphs_wellCat ucat _

theorem latin1_wellCat {ucat : Nat → Cat} (hf : latinFacts ucat)
    (srcChars : List Nat) : WellCat ucat (latin1 ucat srcChars) :=
  ⟨groupByCat_ok ucat _, latinDefault_ok hf⟩

/-- Category invariance of one substitution: whenever `replace_text` draws a
substitute for code point `c`, the substitute is a single code point of the
same Unicode general category. -/
theorem subChar_substituted {ucat : Nat → Cat} {m : CharCats}
    (hw : WellCat ucat m) (hf : latinFacts ucat) {c : Nat}
    (hs : substitutable ucat m c = true) (rnd : Nat → Nat) (k : Nat) :
    ∃ d, subChar ucat m rnd c k = [d] ∧ ucat d = ucat c := by
  rw [substitutable] at hs
  rw [subChar]
  split
  · next hpass => rw [if_pos hpass] at hs; exact Bool.noConfusion hs
  · next hpass =>
    rcases hpool : alookup m.pools (ucat c) with _ | pool
    · rcases hlat : alookup latinDefault (ucat c) with _ | dpool
      · rw [if_neg hpass, hpool, hlat] at hs
        exact Bool.noConfusion hs
      · simp only [hpool, hlat]
        obtain ⟨h1, h2, h3⟩ := latinDefault_ok hf _ (alookup_mem hlat)
        have hmem := randomChoice_mem h2 (rnd k)
        exact single_of_catOf (h3 _ hmem) hpass
    · simp only [hpool]
      rcases hdflt : alookup m.dflt (ucat c) with _ | dpool
      · simp only [hdflt]
        obtain ⟨h1, h2, h3⟩ := hw.1 _ (alookup_mem hpool)
        have hmem := randomChoice_mem h2 (rnd k)
        exact single_of_catOf (h3 _ hmem) hpass
      · simp only [hdflt]
        split
        · obtain ⟨h1, h2, h3⟩ := hw.2 _ (alookup_mem hdflt)
          have hmem := randomChoice_mem h2 (rnd k)
          exact single_of_catOf (h3 _ hmem) hpass
        · obtain ⟨h1, h2, h3⟩ := hw.1 _ (alookup_mem hpool)
          have hmem := randomChoice_mem h2 (rnd k)
          exact single_of_catOf (h3 _ hmem) hpass

/-- When `c` has a pass-through category, `replace_text` copies it. -/
theorem subChar_pass {ucat : Nat → Cat} {m : CharCats} {c : Nat}
    (h : (ucat c).1 ∈ passCats) (rnd : Nat → Nat) (k : Nat) :
    subChar ucat m rnd c k = [c] := by
  rw [subChar]; exact if_pos h

/-- Every output block of `replace_text` is a single code point (for a
well-formed category map). -/
theorem subChar_length_one {ucat : Nat → Cat} {m : CharCats}
    (hw : WellCat ucat m) (hf : latinFacts ucat) (rnd : Nat → Nat)
    (c k : Nat) : (subChar ucat m rnd c k).length = 1 := by
  by_cases hs : substitutable ucat m c = true
  · obtain ⟨d, hd, _⟩ := subChar_substituted hw hf hs rnd k
    rw [hd]; rfl
  · rw [substitutable] at hs
    rw [subChar]
    split
    · rfl
    · next hpass =>
      rcases hpool : alookup m.pools (ucat c) with _ | pool
      · rcases hlat : alookup latinDefault (ucat c) with _ | dpool
        · simp only [hpool, hlat]; rfl
        · rw [if_neg hpass, hpool, hlat] at hs
          simp at hs
      · rw [if_neg hpass, hpool] at hs
        simp at hs

/-- `replace_text` preserves the number of characters (for a well-formed
category map: every block it appends is a single code point). -/
theorem replaceText_length {ucat : Nat → Cat} {m : CharCats}
    (hw : WellCat ucat m) (hf : latinFacts ucat) (rnd : Nat → Nat) :
    ∀ (text : List Nat) (k : Nat),
      (replaceText ucat m rnd text k).1.length = text.length := by
  intro text
  induction text with
  | nil => intro k; rfl
  | cons c rest ih =>
    intro k
    simp only [replaceText, List.length_append, List.length_cons,
      subChar_length_one hw hf, ih]
    omega

/-- `replace_text` copies pass-through characters unchanged to the same
position. -/
theorem replaceText_pass_position {ucat : Nat → Cat} {m : CharCats}
    (hw : WellCat ucat m) (hf : latinFacts ucat) (rnd : Nat → Nat) :
    ∀ (text : List Nat) (k i c : Nat), text[i]? = some c →
      (ucat c).1 ∈ passCats →
      (replaceText ucat m rnd text k).1[i]? = some c := by
  intro text
  induction text with
  | nil => intro k i c h; exact absurd h (by simp)
  | cons x rest ih =>
    intro k i c h hpass
    simp only [replaceText]
    match i with
    | 0 =>
      have hx : x = c := by simpa using h
      subst hx
      rw [subChar_pass hpass]
      simp
    | Nat.succ j =>
      have hj : rest[j]? = some c := by simpa using h
      have hlen : (subChar ucat m rnd x k).length = 1 :=
        subChar_length_one hw hf rnd x k
      rw [List.getElem?_append_right (by omega), hlen]
      simpa using ih _ j c hj hpass

/-! ## UTF-8 (`bytes.decode()` / `str.encode()`)

CPython's strict UTF-8 codec: decoding rejects malformed sequences
(including overlong forms and surrogates), encoding rejects lone
surrogates.  Failure models the uncaught `UnicodeDecodeError` /
`UnicodeEncodeError`. -/

def utf8EncodeChar (c : Nat) : Option (List Nat) :=
  if 0xD800 ≤ c ∧ c < 0xE000 then none  -- lone surrogate: UnicodeEncodeError
  else if c < 0x80 then some [c]
  else if c < 0x800 then some [0xC0 + c / 0x40, 0x80 + c % 0x40]
  else if c < 0x10000 then
    some [0xE0 + c / 0x1000, 0x80 + (c / 0x40) % 0x40, 0x80 + c % 0x40]
  else
    some [0xF0 + c / 0x40000, 0x80 + (c / 0x1000) % 0x40,
      0x80 + (c / 0x40) % 0x40, 0x80 + c % 0x40]

def utf8Encode : List Nat → Option (List Nat)
  | [] => some []
  | c :: rest =>
    match utf8EncodeChar c, utf8Encode rest with
    | some e, some r => some (e ++ r)
    | _, _ => none

/-- Decode one UTF-8 sequence: lead byte `b` followed by `rest`; returns the
code point and how many continuation bytes were consumed. -/
def utf8Step (b : Nat) (rest : List Nat) : Option (Nat × Nat) :=
  if b < 0x80 then some (b, 0)
  else if 0xC2 ≤ b ∧ b ≤ 0xDF then
    match rest with
    | b1 :: _ =>
      if 0x80 ≤ b1 ∧ b1 ≤ 0xBF then
        some ((b - 0xC0) * 0x40 + (b1 - 0x80), 1)
      else none
    | [] => none
  else if 0xE0 ≤ b ∧ b ≤ 0xEF then
    match rest with
    | b1 :: b2 :: _ =>
      if (if b = 0xE0 then 0xA0 ≤ b1 ∧ b1 ≤ 0xBF
          else if b = 0xED then 0x80 ≤ b1 ∧ b1 ≤ 0x9F
          else 0x80 ≤ b1 ∧ b1 ≤ 0xBF) ∧ 0x80 ≤ b2 ∧ b2 ≤ 0xBF then
        some ((b - 0xE0) * 0x1000 + (b1 - 0x80) * 0x40 + (b2 - 0x80), 2)
      else none
    | _ => none
  else if 0xF0 ≤ b ∧ b ≤ 0xF4 then
    match rest with
    | b1 :: b2 :: b3 :: _ =>
      if (if b = 0xF0 then 0x90 ≤ b1 ∧ b1 ≤ 0xBF
          else if b = 0xF4 then 0x80 ≤ b1 ∧ b1 ≤ 0x8F
          else 0x80 ≤ b1 ∧ b1 ≤ 0xBF) ∧ 0x80 ≤ b2 ∧ b2 ≤ 0xBF
          ∧ 0x80 ≤ b3 ∧ b3 ≤ 0xBF then
        some ((b - 0xF0) * 0x40000 + (b1 - 0x80) * 0x1000
          + (b2 - 0x80) * 0x40 + (b3 - 0x80), 3)
      else none
    | _ => none
  else none

/-- Decoder loop.  The first argument is step fuel: every step consumes at
least one byte, so `bs.length` fuel always suffices and the
`0, _ :: _` fallback is unreachable from `utf8Decode`. -/
def utf8DecodeF : Nat → List Nat → Option (List Nat)
  | _, [] => some []
  | 0, _ :: _ => none
  | fuel + 1, b :: rest =>
    match utf8Step b rest with
    | some (v, n) => (utf8DecodeF fuel (rest.drop n)).map (v :: ·)
    | none => none

def utf8Decode (bs : List Nat) : Option (List Nat) :=
  utf8DecodeF bs.length bs

theorem utf8Decode_ascii :
    ∀ {bs : List Nat}, (∀ b ∈ bs, b < 0x80) → utf8Decode bs = some bs := by
  intro bs
  induction bs with
  | nil => intro _; rfl
  | cons b rest ih =>
    intro h
    have hstep : utf8Step b rest = some (b, 0) := by
      unfold utf8Step
      rw [if_pos (h b (List.mem_cons_self _ _))]
    rw [utf8Decode] at ih ⊢
    simp only [List.length_cons, utf8DecodeF, hstep, List.drop_zero,
      ih fun x hx => h x (List.mem_cons_of_mem _ hx)]
    rfl

theorem utf8Encode_ascii :
    ∀ {s : List Nat}, (∀ c ∈ s, c < 0x80) → utf8Encode s = some s := by
  intro s
  induction s with
  | nil => intro _; rfl
  | cons c rest ih =>
    intro h
    have hc : c < 0x80 := h c (List.mem_cons_self _ _)
    rw [utf8Encode, ih fun x hx => h x (List.mem_cons_of_mem _ hx),
      utf8EncodeChar, if_neg (by omega), if_pos hc]
    rfl

/-! ## Literal-string spans (`in_parens = re.compile(rb"\((.*?)\)")`) -/

/-- Distance to the closing `)` (the lazy `(.*?)\)` tail): number of bytes
before the first `)`, provided no newline intervenes (`.` does not match
`\n`). -/
def spanToClose : List Nat → Option Nat
  | [] => none
  | b :: rest =>
    if b = 0x29 then some 0
    else if b = 0x0A then none
    else (spanToClose rest).map (· + 1)

/-- All matches of `in_parens` in order, as `(group_start, group_end)` byte
offsets; `i` is the absolute offset of the head of the remaining list.  The
fuel argument bounds the number of scanning steps; each step consumes at
least one byte, so list length suffices and the `0, _ :: _` fallback is
unreachable from `findParens`. -/
def findParensF : Nat → List Nat → Nat → List (Nat × Nat)
  | _, [], _ => []
  | 0, _ :: _, _ => []
  | fuel + 1, b :: rest, i =>
    if b = 0x28 then
      match spanToClose rest with
      | some n =>
        (i + 1, i + 1 + n) :: findParensF fuel (rest.drop (n + 1)) (i + n + 2)
      | none => findParensF fuel rest (i + 1)
    else findParensF fuel rest (i + 1)

def findParens (text : List Nat) : List (Nat × Nat) :=
  findParensF text.length text 0

/-- `bytearray` slice assignment `l[s:e] = r`. -/
def spliceList {α : Type} (l : List α) (s e : Nat) (r : List α) : List α :=
  l.take s ++ r ++ l.drop e

/-- `replace_bytes`: rewrite each parenthesized span through `replace_text`,
decoding/encoding UTF-8 at the original match offsets.  `none` models an
uncaught `UnicodeDecodeError`/`UnicodeEncodeError`. -/
def replaceBytes (ucat : Nat → Cat) (m : CharCats) (rnd : Nat → Nat)
    (text : List Nat) (k : Nat) : Option (List Nat × Nat) :=
  (findParens text).foldlM
    (fun cur se => do
      let grp := (text.take se.2).drop se.1
      let chars ← utf8Decode grp
      let rt := replaceText ucat m rnd chars cur.2
      let repB ← utf8Encode rt.1
      pure (spliceList cur.1 se.1 se.2 repB, rt.2))
    (text, k)

theorem spanToClose_lt :
    ∀ {l : List Nat} {n : Nat}, spanToClose l = some n → n < l.length := by
  intro l
  induction l with
  | nil => intro n h; exact Option.noConfusion h
  | cons b rest ih =>
    intro n h
    rw [spanToClose] at h
    split at h
    · cases Option.some.inj h; simp
    · split at h
      · exact Option.noConfusion h
      · rcases hrec : spanToClose rest with _ | m <;> rw [hrec] at h
        · exact Option.noConfusion h
        · cases Option.some.inj h
          have := ih hrec
          simp only [List.length_cons]
          omega

/-- Bounds of the matched spans: each group lies inside the scanned byte
range. -/
theorem findParensF_bounds :
    ∀ (fuel : Nat) (l : List Nat) (i : Nat) (se : Nat × Nat),
      se ∈ findParensF fuel l i →
      i + 1 ≤ se.1 ∧ se.1 ≤ se.2 ∧ se.2 ≤ i + l.length := by
  intro fuel
  induction fuel with
  | zero =>
    intro l i se h
    cases l with
    | nil => exact absurd h (List.not_mem_nil se)
    | cons b rest => exact absurd h (List.not_mem_nil se)
  | succ fuel ih =>
    intro l i se h
    cases l with
    | nil => exact absurd h (List.not_mem_nil se)
    | cons b rest =>
      rw [findParensF] at h
      split at h
      · split at h
        · next n hspan =>
          rcases List.mem_cons.mp h with h | h
          · subst h
            have := spanToClose_lt hspan
            simp only [List.length_cons]
            omega
          · obtain ⟨h1, h2, h3⟩ := ih _ _ _ h
            rw [List.length_drop] at h3
            have := spanToClose_lt hspan
            simp only [List.length_cons]
            omega
        · obtain ⟨h1, h2, h3⟩ := ih _ _ _ h
          simp only [List.length_cons]
          omega
      · obtain ⟨h1, h2, h3⟩ := ih _ _ _ h
        simp only [List.length_cons]
        omega

theorem findParens_bounds {text : List Nat} {se : Nat × Nat}
    (h : se ∈ findParens text) : se.1 ≤ se.2 ∧ se.2 ≤ text.length := by
  obtain ⟨_, h2, h3⟩ := findParensF_bounds _ _ _ _ h
  exact ⟨h2, by simpa using h3⟩

/-- All glyphs stored in the map are ASCII (every stored code point is below
`0x80`), so substitutes re-encode to one byte each. -/
def AsciiPools (m : CharCats) : Prop :=
  (∀ p ∈ m.pools, ∀ g ∈ p.2, ∀ d ∈ g, d < 0x80) ∧
  (∀ p ∈ m.dflt, ∀ g ∈ p.2, ∀ d ∈ g, d < 0x80)

theorem latinDefault_ascii :
    ∀ p ∈ latinDefault, ∀ g ∈ p.2, ∀ d ∈ g, d < 0x80 := by decide

/-- With ASCII pools, the block produced for an ASCII code point is ASCII. -/
theorem subChar_ascii {ucat : Nat → Cat} {m : CharCats}
    (ha : AsciiPools m) {c : Nat} (hc : c < 0x80) (rnd : Nat → Nat) (k : Nat) :
    ∀ d ∈ subChar ucat m rnd c k, d < 0x80 := by
  intro d hd
  rw [subChar] at hd
  split at hd
  · rw [List.mem_singleton] at hd; omega
  · rcases hpool : alookup m.pools (ucat c) with _ | pool <;>
      simp only [hpool] at hd
    · rcases hlat : alookup latinDefault (ucat c) with _ | dpool <;>
        simp only [hlat] at hd
      · rw [List.mem_singleton] at hd; omega
      · have hne : dpool ≠ [] := by
          rintro rfl
          simp [randomChoice] at hd
        exact latinDefault_ascii _ (alookup_mem hlat) _
          (randomChoice_mem hne _) d hd
    · rcases hdflt : alookup m.dflt (ucat c) with _ | dpool <;>
        simp only [hdflt] at hd
      · have hne : pool ≠ [] := by
          rintro rfl
          simp [randomChoice] at hd
        exact ha.1 _ (alookup_mem hpool) _ (randomChoice_mem hne _) d hd
      · split at hd
        · next hcond =>
            have hne : dpool ≠ [] := List.ne_nil_of_mem hcond
            exact ha.2 _ (alookup_mem hdflt) _ (randomChoice_mem hne _) d hd
        · have hne : pool ≠ [] := by
            rintro rfl
            simp [randomChoice] at hd
          exact ha.1 _ (alookup_mem hpool) _ (randomChoice_mem hne _) d hd

theorem replaceText_ascii {ucat : Nat → Cat} {m : CharCats}
    (ha : AsciiPools m) (rnd : Nat → Nat) :
    ∀ (text : List Nat) (k : Nat), (∀ c ∈ text, c < 0x80) →
      ∀ d ∈ (replaceText ucat m rnd text k).1, d < 0x80 := by
  intro text
  induction text with
  | nil => intro k _ d hd; exact absurd hd (List.not_mem_nil d)
  | cons c rest ih =>
    intro k h d hd
    simp only [replaceText] at hd
    rcases List.mem_append.mp hd with hd | hd
    · exact subChar_ascii ha (h c (List.mem_cons_self _ _)) rnd k d hd
    · exact ih _ (fun x hx => h x (List.mem_cons_of_mem _ hx)) d hd

theorem spliceList_length {α : Type} {l r : List α} {s e : Nat}
    (hse : s ≤ e) (hel : e ≤ l.length) (hr : r.length = e - s) :
    (spliceList l s e r).length = l.length := by
  rw [spliceList]
  simp only [List.length_append, List.length_take, List.length_drop]
  omega

/-- `replace_bytes` preserves the byte length and succeeds whenever the
matched literal-string spans are ASCII and the map's pools are ASCII. -/
theorem replaceBytes_length {ucat : Nat → Cat} {m : CharCats}
    (hw : WellCat ucat m) (hf : latinFacts ucat) (ha : AsciiPools m)
    (rnd : Nat → Nat) (text : List Nat) (k : Nat)
    (hin : ∀ se ∈ findParens text,
      ∀ b ∈ (text.take se.2).drop se.1, b < 0x80) :
    ∃ out k', replaceBytes ucat m rnd text k = some (out, k') ∧
      out.length = text.length := by
  rw [replaceBytes]
  have main : ∀ (ms : List (Nat × Nat)),
      (∀ se ∈ ms, se.1 ≤ se.2 ∧ se.2 ≤ text.length ∧
        ∀ b ∈ (text.take se.2).drop se.1, b < 0x80) →
      ∀ (cur : List Nat × Nat), cur.1.length = text.length →
      ∃ out k', ms.foldlM
        (fun cur se => do
          let grp := (text.take se.2).drop se.1
          let chars ← utf8Decode grp
          let rt := replaceText ucat m rnd chars cur.2
          let repB ← utf8Encode rt.1
          pure (spliceList cur.1 se.1 se.2 repB, rt.2)) cur
        = some (out, k') ∧ out.length = text.length := by
    intro ms
    induction ms with
    | nil => intro _ cur hcur; exact ⟨cur.1, cur.2, rfl, hcur⟩
    | cons se rest ih =>
      intro hms cur hcur
      obtain ⟨h1, h2, h3⟩ := hms se (List.mem_cons_self _ _)
      have hgrp : ((text.take se.2).drop se.1).length = se.2 - se.1 := by
        simp only [List.length_drop, List.length_take]
        omega
      rw [List.foldlM_cons]
      have hrep := replaceText_length hw hf rnd ((text.take se.2).drop se.1)
        cur.2
      have hascii := @replaceText_ascii ucat m ha rnd
        ((text.take se.2).drop se.1) cur.2 h3
      simp only [utf8Decode_ascii h3, utf8Encode_ascii hascii,
        Option.bind_eq_bind, Option.some_bind]
      have hsplice :
          (spliceList cur.1 se.1 se.2
            (replaceText ucat m rnd ((text.take se.2).drop se.1) cur.2).1).length
          = text.length := by
        rw [← hcur] at h2 ⊢
        exact spliceList_length h1 h2 (by rw [hrep, hgrp])
      exact ih (fun x hx => hms x (List.mem_cons_of_mem _ hx)) _ hsplice
  refine main (findParens text) ?_ (text, k) rfl
  intro se hse
  obtain ⟨h1, h2⟩ := findParens_bounds hse
  exact ⟨h1, h2, hin se hse⟩

/-! ## CMap parsing (`map_unicode`) and hex text -/

/-- Uncaught Python exceptions relevant to the embedded code paths.
`fuel` marks recursion-bound exhaustion of the embedding itself; it is
unreachable from the entry points (every loop consumes input and the fuel
supplied is an upper bound on the iteration count). -/
inductive PyErr where
  | indexError
  | attributeError
  | nameError
  | valueError
  | keyError
  | fuel
  deriving DecidableEq

instance {ε α : Type} [DecidableEq ε] [DecidableEq α] :
    DecidableEq (Except ε α) := fun a b =>
  match a, b with
  | .error e, .error f =>
    if h : e = f then isTrue (by rw [h])
    else isFalse fun he => h (by injection he)
  | .ok x, .ok y =>
    if h : x = y then isTrue (by rw [h])
    else isFalse fun he => h (by injection he)
  | .error _, .ok _ => isFalse fun he => Except.noConfusion he
  | .ok _, .error _ => isFalse fun he => Except.noConfusion he

/-- Python `dict` assignment `d[k] = v`: overwrite in place, else append
(insertion order preserved). -/
def dictSet {α β : Type} [DecidableEq α] : List (α × β) → α → β →
    List (α × β)
  | [], k, v => [(k, v)]
  | (k', v') :: rest, k, v =>
    if k' = k then (k, v) :: rest else (k', v') :: dictSet rest k v

/-- A regex match: start offset, end offset (exclusive), group-1 bytes. -/
structure RMatch where
  s : Nat
  e : Nat
  grp : List Nat
  deriving DecidableEq

/-- Distance to the first occurrence of byte `cls`, provided no newline
comes first (the lazy `(.*?)` group; `.` does not match `\n`). -/
def spanToCloseD (cls : Nat) : List Nat → Option Nat
  | [] => none
  | b :: rest =>
    if b = cls then some 0
    else if b = 0x0A then none
    else (spanToCloseD cls rest).map (· + 1)

/-- All matches of a lazy `opn (.*?) cls` pattern, in order.  Fuel bounds
the scanning steps; each step consumes at least one byte so list length
suffices and the `0, _ :: _` fallback is unreachable. -/
def findDelimsF (opn cls : Nat) : Nat → List Nat → Nat → List RMatch
  | _, [], _ => []
  | 0, _ :: _, _ => []
  | fuel + 1, b :: rest, i =>
    if b = opn then
      match spanToCloseD cls rest with
      | some n =>
        ⟨i, i + n + 2, rest.take n⟩ ::
          findDelimsF opn cls fuel (rest.drop (n + 1)) (i + n + 2)
      | none => findDelimsF opn cls fuel rest (i + 1)
    else findDelimsF opn cls fuel rest (i + 1)

/-- `in_angle = re.compile(rb"\<(.*?)\>")`. -/
def findAngle (l : List Nat) : List RMatch :=
  findDelimsF 0x3C 0x3E l.length l 0

/-- `in_square_brackets = re.compile(rb"\[(.*?)\]")`. -/
def findSquare (l : List Nat) : List RMatch :=
  findDelimsF 0x5B 0x5D l.length l 0

/-- `bytes.find(sub)`: index of the first occurrence, `None` for `-1`. -/
def findSubF : Nat → List Nat → List Nat → Nat → Option Nat
  | _, [], needle, i => if needle.isEmpty then some i else none
  | 0, _ :: _, _, _ => none
  | fuel + 1, b :: rest, needle, i =>
    if needle.isPrefixOf (b :: rest) then some i
    else findSubF fuel rest needle (i + 1)

def findSub (haystack needle : List Nat) : Option Nat :=
  findSubF haystack.length haystack needle 0

/-- The slice `l[pos:endpos]` (with clamping, as `re` pos/endpos do; a
negative `endpos` is clamped to `0`, which the caller encodes as
`endpos = 0`). -/
def regionSlice (l : List Nat) (pos endpos : Nat) : List Nat :=
  (l.take endpos).drop pos

/-- One hex digit value (`int(·, 16)` accepts both cases). -/
def hexDigit (b : Nat) : Option Nat :=
  if 48 ≤ b ∧ b ≤ 57 then some (b - 48)
  else if 65 ≤ b ∧ b ≤ 70 then some (b - 55)
  else if 97 ≤ b ∧ b ≤ 102 then some (b - 87)
  else none

/-- `int(bs, 16)` (`pdf_hex_to_int`); a non-hex byte or empty string raises
`ValueError`.  (CPython also tolerates surrounding whitespace, sign and
underscores; the byte strings reaching this call are bare hex digits.) -/
def hexVal (bs : List Nat) : Except PyErr Nat :=
  match bs with
  | [] => .error .valueError
  | _ =>
    bs.foldlM
      (fun acc b =>
        match hexDigit b with
        | some d => .ok (acc * 16 + d)
        | none => .error (.valueError))
      0

/-- Generic little-endian base-`b` digits with structural fuel (`n` fuel
steps always suffice, since `n / b < n` for `n > 0`). -/
def digitsF (b : Nat) : Nat → Nat → List Nat
  | _, 0 => []
  | 0, _ + 1 => []
  | fuel + 1, n + 1 => (n + 1) % b :: digitsF b fuel ((n + 1) / b)

theorem digitsF_eq_digits {b : Nat} (hb : 2 ≤ b) :
    ∀ (fuel n : Nat), n ≤ fuel → digitsF b fuel n = Nat.digits b n := by
  intro fuel
  induction fuel with
  | zero =>
    intro n hn
    interval_cases n
    simp [digitsF]
  | succ f ih =>
    intro n hn
    match n with
    | 0 => simp [digitsF]
    | m + 1 =>
      rw [digitsF, Nat.digits_def' (by omega : 1 < b) (Nat.succ_pos m)]
      congr 1
      exact ih _ (by
        have h2 : (m + 1) / b < m + 1 :=
          Nat.div_lt_self (by omega) (by omega)
        omega)

/-- Uppercase hex digit byte. -/
def hexDigitU (d : Nat) : Nat := if d < 10 then 48 + d else 55 + d

/-- `int_to_pdf_hex`: `f"{i:04X}".encode()` — uppercase hex, zero-padded to
at least four digits. -/
def intToPdfHex (i : Nat) : List Nat :=
  let ds := ((digitsF 16 i i).reverse.map hexDigitU)
  let ds := if ds.isEmpty then [48] else ds
  List.replicate (4 - ds.length) 48 ++ ds

/-- `map_pair`: store the destination text (the hex string decoded in groups
of four digits) under the source code.  A malformed hex group raises
`ValueError`. -/
def chunks4F : Nat → List Nat → List (List Nat)
  | _, [] => []
  | 0, _ :: _ => []
  | fuel + 1, l@(_ :: _) => l.take 4 :: chunks4F fuel (l.drop 4)

def mapPair (fromB toB : List Nat)
    (tu : List (List Nat × Glyph)) : Except PyErr (List (List Nat × Glyph)) := do
  let cps ← (chunks4F toB.length toB).mapM (fun ch => hexVal ch)
  .ok (dictSet tu fromB cps)

/-- `next(it, None)` over a list cursor. -/
def nextIt (it : List RMatch) : Option RMatch × List RMatch :=
  (it.head?, it.tail)

/-- The `for from_b in map_from:` loop of the list-destination branch of
`map_unicode`: one destination per code, consumed in order; raises
`IndexError` when the next angle match lies beyond the closing bracket of
the (first) square-bracket group, `AttributeError` when the matches are
exhausted. -/
def bfrangeListBranch :
    List (List Nat) → Option RMatch → List RMatch → RMatch →
    List (List Nat × Glyph) →
    Except PyErr (List (List Nat × Glyph) × Option RMatch × List RMatch)
  | [], mt, it, _, tu => .ok (tu, mt, it)
  | fb :: rest, mt, it, sqm, tu =>
    match mt with
    | none => .error .attributeError  -- map_to.end() on None
    | some m =>
      if sqm.e < m.e then .error .indexError
        -- "Not enough characters to map to in bfrange"
      else do
        let tu ← mapPair fb m.grp tu
        let (mt', it') := nextIt it
        bfrangeListBranch rest mt' it' sqm tu

/-- `for from_b in map_from: map_pair(from_b, map_to.group(1))` (single
destination applied to the whole range). -/
def bfrangeSame : List (List Nat) → List Nat → List (List Nat × Glyph) →
    Except PyErr (List (List Nat × Glyph))
  | [], _, tu => .ok tu
  | fb :: rest, g, tu => do bfrangeSame rest g (← mapPair fb g tu)

/-- The `while angle:` loop of `map_unicode`.  `sq` is the first
square-bracket match (the source never advances it).  Fuel bounds the number
of loop iterations; every iteration consumes at least one angle match, so
`length + 1` suffices and the `.fuel` fallback is unreachable from
`mapUnicode`. -/
def bfrangeLoopF : Nat → Option RMatch → List RMatch → Option RMatch →
    List (List Nat × Glyph) → Except PyErr (List (List Nat × Glyph))
  | _, none, _, _, tu => .ok tu
  | 0, some _, _, _, _ => .error .fuel
  | fuel + 1, some a, it, sq, tu => do
    let rs ← hexVal a.grp
    let (angle2, it) := nextIt it
    match angle2 with
    | none => .error .attributeError  -- angle.group(1) on None
    | some a2 => do
      let re ← hexVal a2.grp
      let mapFrom := (List.range' rs (re + 1 - rs)).map intToPdfHex
      let (mapTo, it) := nextIt it
      match sq with
      | none =>
        -- `square and ...` is falsy: the whole range maps to one text
        match mapTo with
        | none => .error .attributeError  -- map_to.group(1) on None
        | some mt => do
          let tu ← bfrangeSame mapFrom mt.grp tu
          let (angle3, it) := nextIt it
          bfrangeLoopF fuel angle3 it sq tu
      | some sqm =>
        match mapTo with
        | none => .error .attributeError  -- map_to.start() on None
        | some mt =>
          if sqm.s < mt.s then do
            -- one destination per code in the range
            let (tu, _, it') ← bfrangeListBranch mapFrom (some mt) it sqm tu
            -- the source then fetches yet another angle match for `angle`,
            -- dropping the one left in map_to
            let (angle3, it'') := nextIt it'
            bfrangeLoopF fuel angle3 it'' sq tu
          else do
            let tu ← bfrangeSame mapFrom mt.grp tu
            let (angle3, it') := nextIt it
            bfrangeLoopF fuel angle3 it' sq tu

/-- The `for i in range(0, len(matches), 2): map_pair(...)` loop of the
bfchar section; an odd match count hits `matches[i + 1]` out of range. -/
def bfcharLoop : List RMatch → List (List Nat × Glyph) →
    Except PyErr (List (List Nat × Glyph))
  | [], tu => .ok tu
  | [_], _ => .error .indexError  -- matches[i + 1] with an odd count
  | x :: y :: rest, tu => do bfcharLoop rest (← mapPair x.grp y.grp tu)

/-- `map_unicode`: parse the `beginbfchar…endbfchar` and
`beginbfrange…endbfrange` sections of a `ToUnicode` CMap stream and build
the code→text map, its inverse, and the category pools of the mapped
glyphs.  An error is an uncaught Python exception escaping the call. -/
def mapUnicode (ucat : Nat → Cat) (stream : List Nat) :
    Except PyErr CharCats := do
  -- bfchar section
  let p1 : Nat := match findSub stream (strBytes "beginbfchar") with
    | some idx => idx + 11
    | none => 10  -- (-1) + 11
  let e1 : Nat := match findSub stream (strBytes "endbfchar") with
    | some idx => idx
    | none => 0  -- endpos -1 clamps to 0
  let ms := findAngle (regionSlice stream p1 e1)
  let tu ← bfcharLoop ms []
  -- bfrange section
  let p2 : Nat := match findSub stream (strBytes "beginbfrange") with
    | some idx => idx + 13
    | none => 12
  let e2 : Nat := match findSub stream (strBytes "endbfrange") with
    | some idx => idx
    | none => 0
  let angles := findAngle (regionSlice stream p2 e2)
  let squares := findSquare (regionSlice stream p2 e2)
  let (angle, it) := nextIt angles
  let (square, _) := nextIt squares
  let tu ← bfrangeLoopF (angles.length + 1) angle it square tu
  -- `char_cats = categorize_glyphs(to_unicode.values())`
  let base := categorizeGlyphs ucat (tu.map Prod.snd)
  .ok { base with
        toUni := some tu
        fromUni := some (tu.foldl (fun acc kv => dictSet acc kv.2 kv.1) []) }

/-! ## Numeric formatting and `Mangler.tweak_num`

Floats are modelled as exact rationals.  `int(x)` truncates toward zero;
`f"{v:w.nf}"` rounds to `n` decimals and pads with spaces on the left to a
minimum total width `w`.  (CPython rounds the binary double half-to-even;
the embedding rounds the exact rational half-up — the two can differ only on
exact ties, which the bounds in the theorems below rule out wherever a
length is claimed.) -/

/-- `int(q)` (truncation toward zero). -/
def pyIntTrunc (q : ℚ) : Int := if 0 ≤ q then ⌊q⌋ else ⌈q⌉

/-- Little-endian decimal digits (structural; fuel `n` always suffices). -/
def decDigits (n : Nat) : List Nat := digitsF 10 n n

theorem decDigits_eq (n : Nat) : decDigits n = Nat.digits 10 n :=
  digitsF_eq_digits (by norm_num) n n le_rfl

/-- Decimal digit bytes of a natural number (`"0"` for zero). -/
def natToDecBytes (n : Nat) : List Nat :=
  if n = 0 then [48] else (decDigits n).reverse.map (· + 48)

/-- Decimal digit bytes of an integer, with a leading `-` when negative. -/
def intToDecBytes (i : Int) : List Nat :=
  (if i < 0 then [45] else []) ++ natToDecBytes i.natAbs

/-- Left-pad with spaces to a minimum width (as the `d`/`f` format specs
do). -/
def padLeftSpaces (w : Nat) (l : List Nat) : List Nat :=
  List.replicate (w - l.length) 32 ++ l

/-- `f"{i:{w}d}".encode()`. -/
def formatIntWidth (i : Int) (w : Nat) : List Nat :=
  padLeftSpaces w (intToDecBytes i)

/-- `f"{v:{w}.{n}f}".encode()` for `n ≥ 1`: round to `n` decimals; the sign
is the sign of `v` (`-0.00` keeps its minus sign). -/
def formatFixed (v : ℚ) (w n : Nat) : List Nat :=
  let m : Int := round (v * 10 ^ n)
  let a : Nat := m.natAbs
  let ip := a / 10 ^ n
  let fp := a % 10 ^ n
  let fdigits := natToDecBytes fp
  let frac := List.replicate (n - fdigits.length) 48 ++ fdigits
  padLeftSpaces w
    ((if v < 0 then [45] else []) ++ natToDecBytes ip ++ [46] ++ frac)

/-- The exact decimal digit count of `⌊|num|⌋` (and `1` below `1`).  This is
NOT the source's `digits` — the source computes `int(log10(abs(num))) + 1`
on IEEE doubles (see `pyLog10Digits`), which exceeds this exact count when
the double `log10` rounds up across an integer (e.g. at
`999999999999999`, where `log10` returns exactly `15.0`).  It serves as the
specification-side quantity the width theorems compare the source's
`digits` against. -/
def pyDigits (num : ℚ) : Nat :=
  if 1 ≤ |num| then (decDigits ⌊|num|⌋.toNat).length else 1

/-- The `digits` computed at the top of `tweak_num`:
`digits = 1; if abs(num) >= 1: digits = int(log10(abs(num))) + 1`.
`math.log10` operates on IEEE doubles and comes from the C library, so it
is a parameter `lg` (as `math.sqrt` is); for `|num| ≥ 1` the double
`log10` is nonnegative, so the `int()` truncation lands in `ℕ`. -/
def pyLog10Digits (lg : ℚ → ℚ) (num : ℚ) : Nat :=
  if 1 ≤ |num| then (pyIntTrunc (lg |num|)).toNat + 1 else 1

/-- The body of `Mangler.tweak_num` below the `digits` computation,
generalized over the computed digit count `digits`;
`random.uniform(lower, upper)` is modelled as
`lower + (upper - lower) * t` for a sample `t ∈ [0, 1]`. -/
def tweakNumD (digits : Nat) (num mt t : ℚ) (width : Nat) : List Nat :=
  let neg : Nat := if num < 0 then 1 else 0
  let ndec : Int := (width : Int) - digits - neg - 1
  let bounds : ℚ × ℚ :=
    if 0 ≤ num then
      (max ((10 : ℚ) ^ (digits - 1) + 1) (num - mt),
       min (num + mt) ((10 : ℚ) ^ digits - 1))
    else
      (max (num - mt) (-(10 : ℚ) ^ digits + 1),
       min (-(10 : ℚ) ^ (digits - 1) - 1) (num + mt))
  let newVal := bounds.1 + (bounds.2 - bounds.1) * t
  if ndec < 1 then formatIntWidth (pyIntTrunc newVal) width
  else formatFixed newVal width ndec.toNat

/-- `Mangler.tweak_num`: the `digits` computation (`pyLog10Digits`)
followed by the clamp-tweak-format body (`tweakNumD`). -/
def tweakNum (lg : ℚ → ℚ) (num mt t : ℚ) (width : Nat) : List Nat :=
  tweakNumD (pyLog10Digits lg num) num mt t width

/-! ### Length facts about the numeric formatters -/

theorem natToDecBytes_length (n : Nat) :
    (natToDecBytes n).length
      = if n = 0 then 1 else (Nat.digits 10 n).length := by
  rw [natToDecBytes]
  split
  · rfl
  · simp [decDigits_eq]

theorem natToDecBytes_length_pos (n : Nat) :
    1 ≤ (natToDecBytes n).length := by
  rw [natToDecBytes_length]
  split
  · omega
  · next h =>
    have h2 := (@Nat.digits_ne_nil_iff_ne_zero 10 n).mpr h
    have := List.length_pos.mpr h2
    omega

theorem natToDecBytes_len_le {n k : Nat} (hk : 1 ≤ k) (h : n < 10 ^ k) :
    (natToDecBytes n).length ≤ k := by
  rw [natToDecBytes_length]
  split
  · omega
  · next hn =>
    rw [Nat.digits_len 10 n (by norm_num) hn]
    have : Nat.log 10 n < k := Nat.log_lt_of_lt_pow hn h
    omega

theorem natToDecBytes_len_ge {n k : Nat} (h : 10 ^ k ≤ n) :
    k + 1 ≤ (natToDecBytes n).length := by
  have hn : n ≠ 0 := by
    have : 1 ≤ 10 ^ k := Nat.one_le_pow _ _ (by norm_num)
    omega
  rw [natToDecBytes_length, if_neg hn, Nat.digits_len 10 n (by norm_num) hn]
  have : k ≤ Nat.log 10 n :=
    (Nat.pow_le_iff_le_log (by norm_num) hn).mp h
  omega

theorem padLeftSpaces_length (w : Nat) (l : List Nat) :
    (padLeftSpaces w l).length = max w l.length := by
  rw [padLeftSpaces]
  simp only [List.length_append, List.length_replicate]
  omega

/-- Roundings are bounded by integer bounds on the argument. -/
theorem round_le_int {x : ℚ} {K : ℤ} (h : x ≤ K) : round x ≤ K := by
  rw [round_eq]
  have h2 : ⌊x + 1 / 2⌋ ≤ ⌊(K : ℚ) + 1 / 2⌋ := Int.floor_le_floor (by linarith)
  have h3 : ⌊(K : ℚ) + 1 / 2⌋ = K := by
    rw [add_comm, Int.floor_add_int]
    norm_num
  omega

theorem int_le_round {x : ℚ} {K : ℤ} (h : (K : ℚ) ≤ x) : K ≤ round x := by
  rw [round_eq]
  have h2 : ⌊(K : ℚ) + 1 / 2⌋ ≤ ⌊x + 1 / 2⌋ := Int.floor_le_floor (by linarith)
  have h3 : ⌊(K : ℚ) + 1 / 2⌋ = K := by
    rw [add_comm, Int.floor_add_int]
    norm_num
  omega

/-- `random.uniform`: `a + (b - a) * t` stays between `a` and `b` for
`t ∈ [0, 1]` (whichever order `a`, `b` come in). -/
theorem uniform_between {a b t : ℚ} (h0 : 0 ≤ t) (h1 : t ≤ 1) :
    min a b ≤ a + (b - a) * t ∧ a + (b - a) * t ≤ max a b := by
  rcases le_total a b with hab | hab
  · constructor
    · have : 0 ≤ (b - a) * t := mul_nonneg (by linarith) h0
      have := min_le_left a b
      nlinarith [min_le_left a b]
    · have : (b - a) * t ≤ (b - a) * 1 :=
        mul_le_mul_of_nonneg_left h1 (by linarith)
      nlinarith [le_max_right a b]
  · constructor
    · have : (b - a) * t ≥ (b - a) * 1 := by nlinarith
      nlinarith [min_le_right a b]
    · have : (b - a) * t ≤ 0 := mul_nonpos_of_nonpos_of_nonneg (by linarith) h0
      nlinarith [le_max_left a b]

theorem pyDigits_pos (num : ℚ) : 1 ≤ pyDigits num := by
  rw [pyDigits]
  split
  · next h =>
    rw [decDigits_eq]
    have h1 : (1 : ℤ) ≤ ⌊|num|⌋ := by
      rw [Int.le_floor]; exact_mod_cast h
    have h2 : ⌊|num|⌋.toNat ≠ 0 := by omega
    have h3 := (@Nat.digits_ne_nil_iff_ne_zero 10 ⌊|num|⌋.toNat).mpr h2
    have := List.length_pos.mpr h3
    omega
  · omega

theorem pyDigits_lt (num : ℚ) : |num| < (10 : ℚ) ^ pyDigits num := by
  rw [pyDigits]
  split
  · next h =>
    rw [decDigits_eq]
    set m := ⌊|num|⌋.toNat with hm
    have habs : (0 : ℚ) ≤ |num| := abs_nonneg num
    have hfl : (0 : ℤ) ≤ ⌊|num|⌋ := Int.floor_nonneg.mpr habs
    have h1 : m < 10 ^ (Nat.digits 10 m).length :=
      Nat.lt_base_pow_length_digits (by norm_num)
    have hcast : (m : ℚ) = (⌊|num|⌋ : ℚ) := by
      rw [hm]; exact_mod_cast congrArg (fun z : ℤ => (z : ℚ))
        (Int.toNat_of_nonneg hfl)
    have h2 : |num| < (m : ℚ) + 1 := by
      rw [hcast]; exact Int.lt_floor_add_one |num|
    have h3 : (m : ℚ) + 1 ≤ (10 : ℚ) ^ (Nat.digits 10 m).length := by
      have h4 : (m : ℚ) + 1 ≤ ((10 ^ (Nat.digits 10 m).length : ℕ) : ℚ) := by
        exact_mod_cast h1
      simpa using h4
    linarith
  · next h =>
    push_neg at h
    have h1 : (10 : ℚ) ^ (1 : ℕ) = 10 := by norm_num
    rw [h1]
    linarith

theorem pyDigits_le {num : ℚ} (h : 1 ≤ |num|) :
    (10 : ℚ) ^ (pyDigits num - 1) ≤ |num| := by
  rw [pyDigits, if_pos h, decDigits_eq]
  set m := ⌊|num|⌋.toNat with hm
  have habs : (0 : ℚ) ≤ |num| := abs_nonneg num
  have hfl : (1 : ℤ) ≤ ⌊|num|⌋ := by rw [Int.le_floor]; exact_mod_cast h
  have hm0 : m ≠ 0 := by omega
  have h1 : 10 ^ ((Nat.digits 10 m).length - 1) ≤ m := by
    rw [Nat.digits_len 10 m (by norm_num) hm0]
    simpa using Nat.pow_log_le_self 10 hm0
  have hcast : (m : ℚ) = (⌊|num|⌋ : ℚ) := by
    rw [hm]; exact_mod_cast congrArg (fun z : ℤ => (z : ℚ))
      (Int.toNat_of_nonneg (by omega : (0 : ℤ) ≤ ⌊|num|⌋))
  have h2 : (m : ℚ) ≤ |num| := by
    rw [hcast]; exact Int.floor_le |num|
  calc (10 : ℚ) ^ ((Nat.digits 10 m).length - 1)
      ≤ (m : ℚ) := by exact_mod_cast h1
    _ ≤ |num| := h2

/-- `d = 1` unless `|num| ≥ 1`. -/
theorem pyDigits_eq_one_or (num : ℚ) : pyDigits num = 1 ∨ 1 ≤ |num| := by
  rw [pyDigits]
  split
  · next h => exact Or.inr h
  · exact Or.inl rfl

/-- Length of the fixed-point format: sign, `d` integer digits, the decimal
point, and `N` fractional digits — provided `|v|` is small enough not to
carry into an extra integer digit and (for `d ≥ 2`) large enough to fill all
`d` digits. -/
theorem formatFixed_length {v : ℚ} {N d : Nat} (hN : 1 ≤ N) (hd : 1 ≤ d)
    (hup : |v| ≤ 10 ^ d - 1 / 10 ^ N)
    (hlow : d = 1 ∨ (10 : ℚ) ^ (d - 1) ≤ |v|) (w : Nat) :
    (formatFixed v w N).length
      = max w ((if v < 0 then 1 else 0) + d + 1 + N) := by
  have hpowN : (0 : ℚ) < 10 ^ N := by positivity
  have hKcast : (((10 : ℤ) ^ (d + N) - 1 : ℤ) : ℚ) = 10 ^ (d + N) - 1 := by
    push_cast; ring
  -- the rounded scaled value is bounded by `10 ^ (d + N) - 1` in magnitude
  have hxK : |v * 10 ^ N| ≤ ((10 : ℤ) ^ (d + N) - 1 : ℤ) := by
    rw [hKcast, abs_mul, abs_of_pos hpowN]
    have h1 : |v| * 10 ^ N ≤ (10 ^ d - 1 / 10 ^ N) * 10 ^ N :=
      mul_le_mul_of_nonneg_right hup (le_of_lt hpowN)
    have h2 : (10 ^ d - 1 / 10 ^ N) * (10 : ℚ) ^ N = 10 ^ (d + N) - 1 := by
      field_simp
      ring
    linarith
  have habs := abs_le.mp hxK
  have hmle : round (v * 10 ^ N) ≤ (10 : ℤ) ^ (d + N) - 1 :=
    round_le_int habs.2
  have hmge : -((10 : ℤ) ^ (d + N) - 1) ≤ round (v * 10 ^ N) := by
    apply int_le_round
    have h1 := habs.1
    push_cast
    push_cast at h1
    linarith
  have hnatAbs : (round (v * 10 ^ N)).natAbs ≤ 10 ^ (d + N) - 1 := by
    have hpow : (1 : ℤ) ≤ 10 ^ (d + N) := one_le_pow₀ (by norm_num)
    have hcast2 : ((10 ^ (d + N) : ℕ) : ℤ) = 10 ^ (d + N) := by
      push_cast; ring
    omega
  -- hence the integer part has at most `d` digits
  have hip_lt : (round (v * 10 ^ N)).natAbs / 10 ^ N < 10 ^ d := by
    rw [Nat.div_lt_iff_lt_mul (Nat.pos_pow_of_pos N (by norm_num))]
    have h1 : (1 : ℕ) ≤ 10 ^ (d + N) := Nat.one_le_pow _ _ (by norm_num)
    have h2 : (10 : ℕ) ^ d * 10 ^ N = 10 ^ (d + N) := (pow_add 10 d N).symm
    omega
  have hiplen_le : (natToDecBytes ((round (v * 10 ^ N)).natAbs / 10 ^ N)).length
      ≤ d := natToDecBytes_len_le hd hip_lt
  -- and (for `d ≥ 2`) at least `d` digits
  have hiplen_ge : d ≤
      (natToDecBytes ((round (v * 10 ^ N)).natAbs / 10 ^ N)).length := by
    rcases hlow with h1 | hlow2
    · rw [h1]; exact natToDecBytes_length_pos _
    · rcases Nat.lt_or_ge d 2 with hd1 | hd2
      · have : d = 1 := by omega
        rw [this]; exact natToDecBytes_length_pos _
      · -- |v| ≥ 10 ^ (d - 1) pushes the scaled magnitude to 10 ^ (N + d - 1)
        have h1 : (10 : ℚ) ^ (d - 1) * 10 ^ N ≤ |v| * 10 ^ N :=
          mul_le_mul_of_nonneg_right hlow2 (le_of_lt hpowN)
        have hsc : (10 : ℚ) ^ (N + (d - 1)) ≤ |v * 10 ^ N| := by
          rw [abs_mul, abs_of_pos hpowN, pow_add]
          linarith
        have hmabs : (10 : ℤ) ^ (N + (d - 1)) ≤ (round (v * 10 ^ N)).natAbs := by
          rcases le_or_lt 0 (v * 10 ^ N) with hv0 | hv0
          · have h4 : (((10 : ℤ) ^ (N + (d - 1)) : ℤ) : ℚ) ≤ v * 10 ^ N := by
              rw [abs_of_nonneg hv0] at hsc
              push_cast
              linarith
            have := int_le_round h4
            omega
          · have h4 : v * 10 ^ N ≤ ((-(10 : ℤ) ^ (N + (d - 1)) : ℤ) : ℚ) := by
              rw [abs_of_neg hv0] at hsc
              push_cast
              linarith
            have := round_le_int h4
            omega
        have hnat : 10 ^ (N + (d - 1)) ≤ (round (v * 10 ^ N)).natAbs := by
          exact_mod_cast hmabs
        have hipge : 10 ^ (d - 1) ≤ (round (v * 10 ^ N)).natAbs / 10 ^ N := by
          rw [Nat.le_div_iff_mul_le (Nat.pos_pow_of_pos N (by norm_num))]
          calc 10 ^ (d - 1) * 10 ^ N = 10 ^ (N + (d - 1)) := by
                rw [← pow_add]; ring_nf
          _ ≤ _ := hnat
        have := natToDecBytes_len_ge hipge
        omega
  have hiplen : (natToDecBytes ((round (v * 10 ^ N)).natAbs / 10 ^ N)).length
      = d := le_antisymm hiplen_le hiplen_ge
  -- the fractional digits fit in `N` places
  have hfp_lt : (round (v * 10 ^ N)).natAbs % 10 ^ N < 10 ^ N :=
    Nat.mod_lt _ (Nat.pos_pow_of_pos N (by norm_num))
  have hfplen : (natToDecBytes ((round (v * 10 ^ N)).natAbs % 10 ^ N)).length
      ≤ N := natToDecBytes_len_le hN hfp_lt
  -- assemble
  simp only [formatFixed]
  rw [padLeftSpaces_length]
  simp only [List.length_append, List.length_replicate, List.length_cons,
    List.length_nil, hiplen]
  split_ifs with hv
  · simp only [List.length_cons, List.length_nil]
    omega
  · simp only [List.length_nil]
    omega

/-- `10^(d-1) + 1 ≤ 10^d - 1` for `d ≥ 1`. -/
theorem pow_gap {d : Nat} (hd : 1 ≤ d) :
    (10 : ℚ) ^ (d - 1) + 1 ≤ 10 ^ d - 1 := by
  have h1 : (1 : ℚ) ≤ 10 ^ (d - 1) := one_le_pow₀ (by norm_num)
  have h2 : (10 : ℚ) ^ d = 10 ^ (d - 1) * 10 := by
    rw [← pow_succ]
    congr 1
    omega
  linarith

/-- Core length invariant of the `tweak_num` body, stated at the EXACT
digit count of `num`: the returned byte string has exactly `width` bytes,
for any nonnegative tweak bound and any uniform sample, provided (i)
`width` leaves room for the sign and the integer digits of `num`, and (ii)
when a fractional part is called for, `num` does not sit within half an
ulp of gaining an extra integer digit.  (The source's `digits` is the
float-`log10` count `pyLog10Digits`, which can exceed the exact count —
then this theorem does not apply, and the width can overflow; see the C3
counterexample.) -/
theorem tweakNum_length (num mt t : ℚ) (width : Nat)
    (hmt : 0 ≤ mt) (ht0 : 0 ≤ t) (ht1 : t ≤ 1)
    (hw : pyDigits num + (if num < 0 then 1 else 0) ≤ width)
    (hnum : 1 ≤ (width : Int) - pyDigits num
        - (if num < 0 then 1 else 0) - 1 →
      |num| ≤ 10 ^ pyDigits num - 1 / 10 ^
        ((width : Int) - pyDigits num
          - (if num < 0 then 1 else 0) - 1).toNat) :
    (tweakNumD (pyDigits num) num mt t width).length = width := by
  have hd1 : 1 ≤ pyDigits num := pyDigits_pos num
  have hdlt : |num| < (10 : ℚ) ^ pyDigits num := pyDigits_lt num
  have hgap := pow_gap hd1
  have hp1 : (1 : ℚ) ≤ 10 ^ (pyDigits num - 1) := one_le_pow₀ (by norm_num)
  have hpd : (1 : ℚ) ≤ 10 ^ pyDigits num := one_le_pow₀ (by norm_num)
  rcases le_or_lt 0 num with hpos | hneg
  · -- nonnegative branch
    have hnn : ¬ num < 0 := not_lt.mpr hpos
    simp only [tweakNumD, if_pos hpos, if_neg hnn, Nat.cast_zero]
    set d := pyDigits num with hd
    set L := max ((10 : ℚ) ^ (d - 1) + 1) (num - mt) with hL
    set U := min (num + mt) ((10 : ℚ) ^ d - 1) with hU
    set x := L + (U - L) * t with hx
    obtain ⟨hmin, hmax⟩ := @uniform_between L U t ht0 ht1
    have habs : |num| = num := abs_of_nonneg hpos
    have hx_ub : x ≤ max num ((10 : ℚ) ^ d - 1) := by
      refine le_trans hmax (max_le ?_ ?_)
      · refine max_le ?_ ?_
        · exact le_trans (by linarith) (le_max_right _ _)
        · exact le_trans (by linarith : num - mt ≤ num) (le_max_left _ _)
      · exact le_trans (min_le_right _ _) (le_max_right _ _)
    have hx_lb0 : 0 ≤ x := by
      refine le_trans ?_ hmin
      refine le_min ?_ ?_
      · exact le_trans (by linarith) (le_max_left _ _)
      · exact le_min (by linarith) (by linarith)
    have hx_lt : x < (10 : ℚ) ^ d := by
      rcases max_cases num ((10 : ℚ) ^ d - 1) with ⟨he, _⟩ | ⟨he, _⟩ <;>
        rw [he] at hx_ub
      · linarith [habs ▸ hdlt]
      · linarith
    rcases lt_or_ge ((width : Int) - d - 0 - 1) 1 with hni | hni
    · -- integer format branch
      rw [if_pos hni]
      have hfl0 : (0 : ℤ) ≤ ⌊x⌋ := Int.floor_nonneg.mpr hx_lb0
      have hflt : ⌊x⌋ < (10 : ℤ) ^ d := by
        rw [Int.floor_lt]
        push_cast
        exact hx_lt
      have hnab : ⌊x⌋.natAbs < 10 ^ d := by
        have hcast : ((10 ^ d : ℕ) : ℤ) = 10 ^ d := by push_cast; ring
        omega
      have hlen : (intToDecBytes (pyIntTrunc x)).length ≤ width := by
        rw [pyIntTrunc, if_pos hx_lb0, intToDecBytes,
          if_neg (by omega : ¬ ⌊x⌋ < 0)]
        simp only [List.nil_append]
        calc (natToDecBytes ⌊x⌋.natAbs).length ≤ d :=
              natToDecBytes_len_le hd1 hnab
          _ ≤ width := by simp only [if_neg hnn] at hw; omega
      rw [formatIntWidth, padLeftSpaces_length]
      omega
    · -- fixed-point format branch
      rw [if_neg (by omega)]
      set N := ((width : Int) - d - 0 - 1).toNat with hN
      have hN1 : 1 ≤ N := by omega
      have hb := hnum (by simp only [if_neg hnn]; omega)
      rw [habs] at hb
      have hbN : num ≤ 10 ^ d - 1 / 10 ^ N := by
        have : ((width : Int) - d - (if num < 0 then 1 else 0) - 1).toNat
            = N := by simp only [if_neg hnn]
        rwa [this] at hb
      have hfrac : (1 : ℚ) / 10 ^ N ≤ 1 := by
        rw [div_le_one (by positivity)]
        exact one_le_pow₀ (by norm_num)
      have hup : |x| ≤ 10 ^ d - 1 / 10 ^ N := by
        rw [abs_of_nonneg hx_lb0]
        rcases max_cases num ((10 : ℚ) ^ d - 1) with ⟨he, _⟩ | ⟨he, _⟩ <;>
          rw [he] at hx_ub <;> linarith
      have hlow : d = 1 ∨ (10 : ℚ) ^ (d - 1) ≤ |x| := by
        rcases Nat.lt_or_ge d 2 with hd2 | hd2
        · exact Or.inl (by omega)
        · right
          rw [abs_of_nonneg hx_lb0]
          have hn1 : 1 ≤ |num| := by
            rcases pyDigits_eq_one_or num with h | h
            · rw [hd] at *; omega
            · exact h
          have hnum_ge : (10 : ℚ) ^ (d - 1) ≤ num := by
            have := pyDigits_le hn1
            rwa [habs] at this
          refine le_trans ?_ hmin
          refine le_min ?_ ?_
          · exact le_trans (by linarith) (le_max_left _ _)
          · exact le_min (by linarith) (by linarith)
      have hff := formatFixed_length hN1 hd1 hup hlow width
      rw [hff, if_neg (not_lt.mpr hx_lb0)]
      have : d + 1 + N = width := by omega
      omega
  · -- negative branch
    have hnlt : num < 0 := hneg
    have hnp : ¬ 0 ≤ num := not_le.mpr hneg
    simp only [tweakNumD, if_neg hnp, if_pos hnlt, Nat.cast_one]
    set d := pyDigits num with hd
    set L := max (num - mt) (-(10 : ℚ) ^ d + 1) with hL
    set U := min (-(10 : ℚ) ^ (d - 1) - 1) (num + mt) with hU
    set x := L + (U - L) * t with hx
    obtain ⟨hmin, hmax⟩ := @uniform_between L U t ht0 ht1
    have habs : |num| = -num := abs_of_neg hneg
    have hnum_gt : -(10 : ℚ) ^ d < num := by
      have := hdlt
      rw [habs] at this
      linarith
    have hx_neg : x < 0 := by
      refine lt_of_le_of_lt hmax ?_
      refine max_lt ?_ ?_
      · refine max_lt (by linarith) (by linarith)
      · exact lt_of_le_of_lt (min_le_left _ _) (by linarith)
    have hx_gt : -(10 : ℚ) ^ d < x := by
      refine lt_of_lt_of_le ?_ hmin
      refine lt_min ?_ ?_
      · exact lt_max_iff.mpr (Or.inr (by linarith))
      · exact lt_min (by linarith) (by linarith)
    rcases lt_or_ge ((width : Int) - d - 1 - 1) 1 with hni | hni
    · -- integer format branch
      rw [if_pos hni]
      have hceil_le : ⌈x⌉ ≤ 0 := Int.ceil_le.mpr (by exact_mod_cast le_of_lt hx_neg)
      have hceil_gt : -(10 : ℤ) ^ d < ⌈x⌉ := by
        have h1 : ((-(10 : ℤ) ^ d : ℤ) : ℚ) < x := by push_cast; exact hx_gt
        have h2 : x ≤ (⌈x⌉ : ℚ) := Int.le_ceil x
        have h3 : ((-(10 : ℤ) ^ d : ℤ) : ℚ) < (⌈x⌉ : ℚ) := lt_of_lt_of_le h1 h2
        exact_mod_cast h3
      have hnab : ⌈x⌉.natAbs < 10 ^ d := by
        have hcast : ((10 ^ d : ℕ) : ℤ) = 10 ^ d := by push_cast; ring
        omega
      have hlen : (intToDecBytes (pyIntTrunc x)).length ≤ width := by
        rw [pyIntTrunc, if_neg (not_le.mpr hx_neg), intToDecBytes]
        have h4 : (natToDecBytes ⌈x⌉.natAbs).length ≤ d :=
          natToDecBytes_len_le hd1 hnab
        simp only [if_pos hnlt] at hw
        split <;> simp only [List.length_append, List.length_cons,
          List.length_nil] <;> omega
      rw [formatIntWidth, padLeftSpaces_length]
      omega
    · -- fixed-point format branch
      rw [if_neg (by omega)]
      set N := ((width : Int) - d - 1 - 1).toNat with hN
      have hN1 : 1 ≤ N := by omega
      have hb := hnum (by simp only [if_pos hnlt]; omega)
      rw [habs] at hb
      have hbN : -num ≤ 10 ^ d - 1 / 10 ^ N := by
        have : ((width : Int) - d - (if num < 0 then 1 else 0) - 1).toNat
            = N := by simp only [if_pos hnlt]
        rwa [this] at hb
      have hfrac : (1 : ℚ) / 10 ^ N ≤ 1 := by
        rw [div_le_one (by positivity)]
        exact one_le_pow₀ (by norm_num)
      have hup : |x| ≤ 10 ^ d - 1 / 10 ^ N := by
        rw [abs_of_neg hx_neg, neg_le]
        refine le_trans ?_ hmin
        refine le_min ?_ ?_
        · exact le_trans (by linarith) (le_max_right _ _)
        · exact le_min (by linarith) (by linarith)
      have hlow : d = 1 ∨ (10 : ℚ) ^ (d - 1) ≤ |x| := by
        rcases Nat.lt_or_ge d 2 with hd2 | hd2
        · exact Or.inl (by omega)
        · right
          rw [abs_of_neg hx_neg, le_neg]
          have hn1 : 1 ≤ |num| := by
            rcases pyDigits_eq_one_or num with h | h
            · rw [hd] at *; omega
            · exact h
          have hnum_le : num ≤ -(10 : ℚ) ^ (d - 1) := by
            have := pyDigits_le hn1
            rw [habs] at this
            linarith
          refine le_trans hmax ?_
          refine max_le ?_ ?_
          · refine max_le (by linarith) ?_
            have h5 : (10 : ℚ) ^ (d - 1) ≤ 10 ^ d - 1 := by linarith
            linarith
          · exact le_trans (min_le_left _ _) (by linarith)
      have hff := formatFixed_length hN1 hd1 hup hlow width
      rw [hff, if_pos hx_neg]
      have : 1 + d + 1 + N = width := by omega
      omega

/-! ## Numeral matching (`num_re = re.compile(rb"\-?\d+\.?\d*")`) and
`Mangler.mangle_path` -/

def isDigitB (b : Nat) : Bool := decide (48 ≤ b ∧ b ≤ 57)

/-- Scanner state for the numeral regex: outside any candidate, after a
bare `-`, inside the integer part (started at `s`), or inside the
fractional part (match started at `s`). -/
inductive NScan where
  | idle
  | minus (s : Nat)
  | ip (s : Nat)
  | fp (s : Nat)

/-- One byte of the numeral scan (faithful to leftmost matching with greedy
`\d+`, optional single `.`, greedy `\d*`). -/
def numScanStep (st : NScan) (acc : List (Nat × Nat)) (b i : Nat) :
    NScan × List (Nat × Nat) :=
  match st with
  | .idle =>
    if isDigitB b then (.ip i, acc)
    else if b = 45 then (.minus i, acc)
    else (.idle, acc)
  | .minus s =>
    if isDigitB b then (.ip s, acc)
    else if b = 45 then (.minus i, acc)
    else (.idle, acc)
  | .ip s =>
    if isDigitB b then (.ip s, acc)
    else if b = 46 then (.fp s, acc)
    else if b = 45 then (.minus i, acc ++ [(s, i)])
    else (.idle, acc ++ [(s, i)])
  | .fp s =>
    if isDigitB b then (.fp s, acc)
    else if b = 45 then (.minus i, acc ++ [(s, i)])
    else (.idle, acc ++ [(s, i)])

def findNumSpansAux : List Nat → Nat → NScan → List (Nat × Nat) →
    List (Nat × Nat)
  | [], i, st, acc =>
    match st with
    | .ip s => acc ++ [(s, i)]
    | .fp s => acc ++ [(s, i)]
    | _ => acc
  | b :: rest, i, st, acc =>
    let p := numScanStep st acc b i
    findNumSpansAux rest (i + 1) p.1 p.2

/-- All `(start, end)` spans of `num_re` matches, in order. -/
def findNumSpans (bs : List Nat) : List (Nat × Nat) :=
  findNumSpansAux bs 0 .idle []

/-- `float(match.group())` — exact rational value of a matched numeral
(CPython rounds to the nearest double; the embedding keeps the exact
value). -/
def parseNum (tok : List Nat) : ℚ :=
  let sgn : ℚ := match tok with | 45 :: _ => -1 | _ => 1
  let rest := match tok with | 45 :: r => r | _ => tok
  let ipart := rest.takeWhile isDigitB
  let rest2 := rest.dropWhile isDigitB
  let fpart := match rest2 with | 46 :: r => r.takeWhile isDigitB | _ => []
  let iv : Nat := ipart.foldl (fun a b => a * 10 + (b - 48)) 0
  let fv : Nat := fpart.foldl (fun a b => a * 10 + (b - 48)) 0
  sgn * ((iv : ℚ) + (fv : ℚ) / 10 ^ fpart.length)

/-- One parsed numeral field: value and byte span (the dicts built at the
top of `mangle_path`). -/
structure NumTok where
  s : Nat
  e : Nat
  val : ℚ
  deriving DecidableEq

def findNums (bs : List Nat) : List NumTok :=
  (findNumSpans bs).map fun se =>
    ⟨se.1, se.2, parseNum ((bs.take se.2).drop se.1)⟩

/-- The configuration values the engine reads (`defaults.yaml` is not part
of the sources under verification, so no concrete defaults are assumed). -/
structure Config where
  mangleText : Bool
  manglePaths : Bool
  mangleContent : Bool
  excludeClip : Bool
  tweakStart : Bool
  minTweak : ℚ
  percentTweak : ℚ
  percentPageKeep : ℚ

/-- `Mangler.is_background_line`. -/
def isBackgroundLine (cfg : Config) (dims : ℚ × ℚ) (dx dy : ℚ) : Bool :=
  let px := dims.1 * cfg.percentPageKeep
  let py := dims.2 * cfg.percentPageKeep
  -- 9 is 1/8" in pdf units
  decide ((dx > px ∧ dy < 9) ∨ (dy > py ∧ dx < 9) ∨ (dx > px ∧ dy > py))

/-- Path-mangling state (`state["point"]`, page dimensions, and the uniform
sample stream consumed by `tweak_num`). -/
structure PathState where
  point : Option (ℚ × ℚ)
  pageDims : ℚ × ℚ
  rndU : Nat → ℚ
  kU : Nat

/-- Rewrite one numeral field in place with `tweak_num`, consuming one
uniform sample. -/
def applyTweak (lg : ℚ → ℚ) (st : PathState) (arr : List Nat) (o : NumTok)
    (mt : ℚ) : PathState × List Nat :=
  ({ st with kU := st.kU + 1 },
    spliceList arr o.s o.e (tweakNum lg o.val mt (st.rndU st.kU) (o.e - o.s)))

def applyTweaks (lg : ℚ → ℚ) (st : PathState) (arr : List Nat)
    (toks : List NumTok) (mt : ℚ) : PathState × List Nat :=
  toks.foldl (fun p o => applyTweak lg p.1 p.2 o mt) (st, arr)

/-- `math.sqrt` is used only to scale the tweak bound; the embedding takes
it as a parameter (an arbitrary function standing for the float square
root). -/
def endpointBranch (sqrtQ lg : ℚ → ℚ) (cfg : Config) (st : PathState)
    (ops : List NumTok) (i0 i1 : Nat) (arr : List Nat) :
    Option (PathState × List Nat) :=
  match ops.get? i0, ops.get? i1 with
  | some o0, some o1 =>
    match st.point with
    | none => none  -- state["point"][0] on None: TypeError
    | some pt =>
      let x := |o0.val - pt.1|
      let y := |o1.val - pt.2|
      let mag := sqrtQ (x ^ 2 + y ^ 2)
      let st := { st with point := some (o0.val, o1.val) }
      if ¬ isBackgroundLine cfg st.pageDims x y then
        let mt := max cfg.minTweak (mag * cfg.percentTweak)
        let p1 := applyTweak lg st arr o0 mt
        let p2 := applyTweak lg p1.1 p1.2 o1 mt
        some p2
      else some (st, arr)
  | _, _ => none  -- IndexError on ops[i]

/-- `Mangler.mangle_path`. -/
def manglePath (sqrtQ lg : ℚ → ℚ) (cfg : Config) (st : PathState)
    (operands op : List Nat) : Option (PathState × List Nat) :=
  if ¬ cfg.manglePaths then some (st, operands)
  else
    let ops := findNums operands
    if op = strBytes "m" then
      match ops.get? 0, ops.get? 1 with
      | some o0, some o1 =>
        let st := { st with point := some (o0.val, o1.val) }
        if cfg.tweakStart then
          some (applyTweaks lg st operands ops cfg.minTweak)
        else some (st, operands)
      | _, _ => none  -- IndexError on ops[0] / ops[1]
    else if op = strBytes "l" then
      endpointBranch sqrtQ lg cfg st ops 0 1 operands
    else if op = strBytes "c" then
      endpointBranch sqrtQ lg cfg st ops 4 5 operands
    else if op = strBytes "v" ∨ op = strBytes "y" then
      endpointBranch sqrtQ lg cfg st ops 2 3 operands
    else if op = strBytes "re" then
      match ops.get? 2, ops.get? 3 with
      | some o2, some o3 =>
        if ¬ isBackgroundLine cfg st.pageDims |o2.val| |o3.val| then
          match ops.get? 0, ops.get? 1 with
          | some o0, some o1 =>
            let diag := sqrtQ (o2.val ^ 2 + o3.val ^ 2)
            let mt := max cfg.minTweak (diag * cfg.percentTweak)
            let p1 := applyTweak lg st operands o0 mt
            let p2 := applyTweak lg p1.1 p1.2 o1 mt
            let p3 := applyTweak lg p2.1 p2.2 o2 mt
            let p4 := applyTweak lg p3.1 p3.2 o3 mt
            some p4
          | _, _ => none
        else some (st, operands)
      | _, _ => none  -- IndexError on ops[2] / ops[3]
    else some (st, operands)  -- unknown path operator: warn only

/-! ## The operator dispatch of `mangle_stream` (`Mangler` state and the
per-token transform) -/

/-- ASCII whitespace for `bytes.split()` (no separator argument). -/
def pyWS : List Nat := [9, 10, 11, 12, 13, 32]

/-- `bytes.split()`: split on whitespace runs, dropping empty tokens. -/
def pySplit (bs : List Nat) : List (List Nat) :=
  (bs.splitOnP (fun b => decide (b ∈ pyWS))).filter fun t => ¬ t.isEmpty

/-- `replace_hex_bytes`.  The inner `for i in range(...)` loop's body only
assigns `hex_char`, so after it only the LAST two-hex-digit position of the
group is remembered; `i`/`hex_char` persist across matches (function
scope), and referencing them before any assignment raises `NameError`.
`KeyError`s (absent `ToUnicode`/`FromUnicode` keys or unmapped codes) are
caught and leave the bytes unchanged. -/
def replaceHexBytes (ucat : Nat → Cat) (m : CharCats) (rnd : Nat → Nat)
    (text : List Nat) (k : Nat) : Option (List Nat × Nat) :=
  (((findAngle text).foldlM
    (fun (stt : List Nat × Nat × Option (Nat × List Nat)) (mt : RMatch) =>
      let s1 := mt.s + 1
      let e1 := mt.e - 1
      let ih := if s1 + 1 < e1 then
          some (s1 + 2 * ((e1 - s1 - 2) / 2),
            (text.take (s1 + 2 * ((e1 - s1 - 2) / 2) + 2)).drop
              (s1 + 2 * ((e1 - s1 - 2) / 2)))
        else stt.2.2
      match m.toUni with
      | none => some (stt.1, stt.2.1, ih)  -- KeyError "ToUnicode": caught
      | some tbl =>
        match ih with
        | none => none  -- NameError: hex_char referenced before assignment
        | some ihv =>
          match alookup tbl ihv.2 with
          | none => some (stt.1, stt.2.1, ih)  -- KeyError: caught, warn
          | some unihex =>
            let rt := replaceText ucat m rnd unihex stt.2.1
            match utf8Encode rt.1 with
            | none => none  -- UnicodeEncodeError on a surrogate
            | some enc =>
              match utf8Decode enc with
              | none => none  -- (encode/decode round trip: unreachable)
              | some dec =>
                match m.fromUni with
                | none => some (stt.1, rt.2, ih)  -- KeyError: caught
                | some ftbl =>
                  match alookup ftbl dec with
                  | none => some (stt.1, rt.2, ih)  -- KeyError: caught
                  | some code =>
                    some (spliceList stt.1 ihv.1 (ihv.1 + 2) code, rt.2, ih))
    ((text, k, none) : List Nat × Nat × Option (Nat × List Nat))
    : Option (List Nat × Nat × Option (Nat × List Nat))).map
      fun r => (r.1, r.2.1))

/-- The environment a `mangle_stream` run reads: the external
`unicodedata.category`, `math.sqrt` and `math.log10` functions, the
configuration, the page's font resource table, the document's font maps,
and the random streams. -/
structure Env where
  ucat : Nat → Cat
  sqrtQ : ℚ → ℚ
  log10Q : ℚ → ℚ
  cfg : Config
  fontRes : List (List Nat × (Nat × Nat))
  fontMap : List (Option (Nat × Nat) × CharCats)
  rndC : Nat → Nat
  rndU : Nat → ℚ

/-- The mutable `Mangler.state` fields the stream transform touches, plus
the random counters. -/
structure MState where
  font : Option (Nat × Nat)  -- `none` is the `"default"` key
  point : Option (ℚ × ℚ)
  pageDims : ℚ × ℚ
  kC : Nat
  kU : Nat

/-- `Mangler.mangle_text`. -/
def mangleText (env : Env) (st : MState) (operands : List Nat) :
    Option (MState × List Nat) :=
  if ¬ env.cfg.mangleText then some (st, operands)
  else
    match alookup env.fontMap st.font with
    | none => none  -- KeyError on font_map[state["font"]]
    | some m =>
      if 0x3C ∈ operands.take 2 then  -- b"<" in operands[:2]
        (replaceHexBytes env.ucat m env.rndC operands st.kC).map
          fun r => ({ st with kC := r.2 }, r.1)
      else
        (replaceBytes env.ucat m env.rndC operands st.kC).map
          fun r => ({ st with kC := r.2 }, r.1)

/-- The operator dispatch inside `mangle_stream`'s scanning loop. -/
def tfActual (env : Env) (st : MState) (operands op : List Nat) :
    Option (MState × List Nat) :=
  if op = fontChangeOp then
    match (pySplit operands).head? with
    | none => none  -- IndexError on operands.split()[0]
    | some nameB =>
      match utf8Decode nameB with
      | none => none  -- UnicodeDecodeError on .decode()
      | some name =>
        match alookup env.fontRes name with
        | some g => some ({ st with font := some g }, operands)
        | none => some (st, operands)  -- KeyError/AttributeError: caught
  else if op ∈ textShowOps then
    mangleText env st operands
  else if op ∈ clippingPathOps ∧ env.cfg.excludeClip then
    some (st, operands)  -- TBD in the source: pass
  else if op ∈ pathConstructionOps then
    (manglePath env.sqrtQ env.log10Q env.cfg
        ⟨st.point, st.pageDims, env.rndU, st.kU⟩
        operands op).map
      fun r => ({ st with point := r.1.point, kU := r.1.kU }, r.2)
  else some (st, operands)

/-- `Mangler.mangle_stream`: scan and rewrite one content stream, returning
the rewritten bytes and the updated mangler state. -/
def mangleStreamSt (env : Env) (st : MState) (input : List Nat) :
    Option (MState × List Nat) :=
  (scanRun (tfActual env) (scanInit st) input).map
    fun sc => (sc.fstate, sc.out ++ sc.command)

/-- `Mangler.mangle_stream`, output bytes only. -/
def mangleStream (env : Env) (st : MState) (input : List Nat) :
    Option (List Nat) :=
  mangleStreamG (tfActual env) st input

/-! ## Font objects, `add_font_map` and the font slice of `mangle_objects` -/

/-- `get_font_glyphs`.  The glyph-name table (`fonts/glyphlist.txt`) is not
part of the sources under verification, so it is a parameter `glyphlist`
(modelled from the spec: a fixed glyph-name→Unicode table supporting single
code points and multi-code-point ligatures).  An empty name (e.g. from a
trailing `/` in the charset) hits `name[0]` and raises `IndexError`;
unresolvable names are dropped with a warning. -/
def getFontGlyphs (glyphlist : List (List Nat × Glyph)) (charset : List Nat) :
    Except PyErr (List Glyph) :=
  ((charset.splitOn 47).drop 1).foldlM
    (fun acc name =>
      match alookup glyphlist name with
      | some g => .ok (acc ++ [g])
      | none =>
        if 95 ∈ name then .ok acc  -- "_" in name: ligature, ignored
        else
          match name with
          | [] => .error .indexError  -- name[0] on an empty name
          | c :: _ =>
            if c = 117 then  -- 'u': hex-coded code point
              match hexVal (if name.take 3 = strBytes "uni" then name.drop 3
                  else name.drop 1) with
              | .ok v =>
                -- chr(v) raises ValueError above 0x10FFFF — also caught
                .ok (if v < 0x110000 then acc ++ [[v]] else acc)
              | .error _ => .ok acc  -- ValueError: warn, skip
            else .ok acc)  -- unknown glyph name: warn, skip
    []

/-- `map_charset`. -/
def mapCharset (ucat : Nat → Cat) (glyphlist : List (List Nat × Glyph))
    (charset : List Nat) : Except PyErr CharCats :=
  (getFontGlyphs glyphlist charset).map (categorizeGlyphs ucat)

/-- The fields of a font object that `add_font_map` inspects (each `some`
models presence of the corresponding dictionary key). -/
structure FontObj where
  objgen : Nat × Nat
  charSet : Option (List Nat) := none    -- FontDescriptor/CharSet string
  toUnicode : Option (List Nat) := none  -- ToUnicode stream bytes
  firstChar : Option Nat := none
  lastChar : Option Nat := none

/-- The document-wide font map (`Mangler.font_map`); the `none` key is the
initial `"default"` entry. -/
abbrev FontMap := List (Option (Nat × Nat) × CharCats)

/-- `Mangler.add_font_map`: priority charset → ToUnicode CMap → numeric
first/last range → baseline Latin.  A missing `LastChar` next to a present
`FirstChar` raises `AttributeError`; parse errors propagate. -/
def addFontMap (ucat : Nat → Cat) (glyphlist : List (List Nat × Glyph))
    (latinChars : List Nat) (f : FontObj) (fm : FontMap) :
    Except PyErr FontMap :=
  match f.charSet with
  | some cs => (mapCharset ucat glyphlist cs).map
      fun m => dictSet fm (some f.objgen) m
  | none =>
    match f.toUnicode with
    | some s => (mapUnicode ucat s).map fun m => dictSet fm (some f.objgen) m
    | none =>
      match f.firstChar with
      | some fc =>
        match f.lastChar with
        | some lc => .ok (dictSet fm (some f.objgen) (mapNumericRange ucat fc lc))
        | none => .error .attributeError  -- font.LastChar missing
      | none => .ok (dictSet fm (some f.objgen) (latin1 ucat latinChars))

/-- The objects the `mangle_objects` sweep can encounter, restricted to
what matters for font-map construction: font dictionaries, non-dictionary
objects (whose `.keys()` raises the `AttributeError` the loop catches), and
dictionaries with none of the inspected keys. -/
inductive PdfObject where
  | font (f : FontObj)
  | nonDict
  | other

/-- The font slice of `Mangler.mangle_objects`: process every object in
order; `except AttributeError: pass` is the ONLY handler, so any other
exception from `add_font_map` propagates and aborts the run. -/
def mangleObjects (ucat : Nat → Cat) (glyphlist : List (List Nat × Glyph))
    (latinChars : List Nat) : List PdfObject → FontMap →
    Except PyErr FontMap
  | [], fm => .ok fm
  | .font f :: rest, fm =>
    (match addFontMap ucat glyphlist latinChars f fm with
     | .ok fm' => mangleObjects ucat glyphlist latinChars rest fm'
     | .error .attributeError =>
       mangleObjects ucat glyphlist latinChars rest fm  -- caught: pass
     | .error e => .error e)  -- uncaught: aborts the whole run
  | .nonDict :: rest, fm => mangleObjects ucat glyphlist latinChars rest fm
  | .other :: rest, fm => mangleObjects ucat glyphlist latinChars rest fm

/-! ## Document model: hash naming (`create_hash_name`) and per-page
content mangling (`mangle_content`) -/

/-- A page's content streams (`/Contents`, flattened: a single stream is a
one-element list, an array keeps its order). -/
structure PdfPage where
  contents : List (List Nat)

/-- The document data `create_hash_name` and the mangling passes read:
the trailer's `/ID` first element (when present) and the pages. -/
structure PdfDoc where
  id : Option (List Nat)
  pages : List PdfPage

/-- `Mangler.create_hash_name`: MD5 of the unique ID when present, else
MD5 of the concatenation of all page content streams in page order; the
`.pdf` extension is appended.  The MD5 function itself is an external
library (`hashlib`) and is a parameter. -/
def createHashName (md5hex : List Nat → List Nat) (doc : PdfDoc) : List Nat :=
  (match doc.id with
   | some idb => md5hex idb
   | none => md5hex ((doc.pages.map fun p => p.contents.flatten).flatten))
    ++ strBytes ".pdf"

/-- Thread the mangler state through the streams of one `/Contents`
list. -/
def mangleContentStreams (env : Env) : MState → List (List Nat) →
    Option (MState × List (List Nat))
  | st, [] => some (st, [])
  | st, s :: rest => do
    let r ← mangleStreamSt env st s
    let r2 ← mangleContentStreams env r.1 rest
    some (r2.1, r.2 :: r2.2)

/-- Mutate every page's streams in order (the per-page part of
`mangle_pdf`). -/
def manglePages (env : Env) : MState → List PdfPage →
    Option (MState × List PdfPage)
  | st, [] => some (st, [])
  | st, p :: rest => do
    let r ← mangleContentStreams env st p.contents
    let r2 ← manglePages env r.1 rest
    some (r2.1, ⟨r.2⟩ :: r2.2)

/-- One full mangling run over a document: the output name is fixed when
the document is assigned (`pdf` setter calls `create_hash_name`), before
`mangle_pdf` rewrites any stream; the mangled pages (if the run completes)
come second. -/
def manglePdfRun (md5hex : List Nat → List Nat) (env : Env) (st0 : MState)
    (doc : PdfDoc) : List Nat × Option PdfDoc :=
  (createHashName md5hex doc,
   (manglePages env st0 doc.pages).map fun r => { doc with pages := r.2 })

/-- An object whose content streams `mangle_content` rewrites: its stable
identity (`objgen`) and the ids of the streams it references (shared forms
reference the same ids). -/
structure XObj where
  objgen : Nat × Nat
  streamIds : List Nat

/-- Shared document state for `mangle_content`: the stream store, the
visited-identity list, and the mangler state. -/
structure DocState where
  streams : List (Nat × List Nat)
  visited : List (Nat × Nat)
  mstate : MState

/-- `Mangler.mangle_content`: skip when content mangling is off or the
object's `objgen` was already visited; otherwise mangle and write back each
referenced stream and record the `objgen`. -/
def mangleContent (env : Env) (obj : XObj) (ds : DocState) :
    Option DocState :=
  if ¬ env.cfg.mangleContent then some ds
  else if obj.objgen ∈ ds.visited then some ds
  else
    (obj.streamIds.foldlM
      (fun (d : DocState) (sid : Nat) =>
        match alookup d.streams sid with
        | none => none
        | some bytes =>
          (mangleStreamSt env d.mstate bytes).map
            fun (r : MState × List Nat) =>
              { d with streams := dictSet d.streams sid r.2, mstate := r.1 })
      ds).map
      fun (ds' : DocState) => { ds' with visited := ds'.visited ++ [obj.objgen] }

/-! ## Ground instances for the concrete runs below -/

instance (ucat : Nat → Cat) (l : List (Cat × List Glyph)) :
    Decidable (PoolsOK ucat l) := by
  rw [PoolsOK]
  infer_instance

instance (ucat : Nat → Cat) (m : CharCats) : Decidable (WellCat ucat m) := by
  rw [WellCat]
  infer_instance

instance (m : CharCats) : Decidable (AsciiPools m) := by
  rw [AsciiPools]
  infer_instance

/-- A concrete Unicode-category function for the ground instances below: the
true general categories of the ASCII letters and digits, of the Latin-1
uppercase letters À–Å, and of a few punctuation characters; `Cc` elsewhere
(only the listed code points are ever inspected by the concrete runs). -/
def ucatC (c : Nat) : Cat :=
  if 65 ≤ c ∧ c ≤ 90 then ('L', 'u')
  else if 97 ≤ c ∧ c ≤ 122 then ('L', 'l')
  else if 48 ≤ c ∧ c ≤ 57 then ('N', 'd')
  else if 0xC0 ≤ c ∧ c ≤ 0xC5 then ('L', 'u')
  else if c = 32 then ('Z', 's')
  else if c = 40 then ('P', 's')
  else if c = 41 then ('P', 'e')
  else if c = 46 then ('P', 'o')
  else ('C', 'c')

/-- A configuration with text and path mangling disabled. -/
def cfgOff : Config := ⟨false, false, true, false, false, 1, 1/20, 9/10⟩

/-- A configuration with all mangling enabled (no clip exclusion, no start
tweaking). -/
def cfgOn : Config := ⟨true, true, true, false, false, 1, 1/20, 9/10⟩

/-- An environment whose per-operator transforms are all identities (text
and path mangling disabled). -/
def envOff : Env :=
  ⟨ucatC, fun q => q, fun q => q, cfgOff, [], [(none, latin1 ucatC [])],
   fun _ => 0, fun _ => 0⟩

/-- The mangler state at the start of a page. -/
def mst0 : MState := ⟨none, none, (612, 792), 0, 0⟩

/-- An environment whose font `/F1` carries a substitution pool of Latin-1
uppercase letters (À–Å), each of which encodes to two UTF-8 bytes. -/
def envC1 : Env :=
  ⟨ucatC, fun q => q, fun q => q, cfgOn,
   [(strBytes "/F1", (5, 0))],
   [(none, latin1 ucatC []), (some (5, 0), mapNumericRange ucatC 0xC0 0xC5)],
   fun _ => 0, fun _ => 0⟩

/-- Like `envC1`, with font `/F2` mapped to the two-letter pool À–Á. -/
def envC2 : Env :=
  ⟨ucatC, fun q => q, fun q => q, cfgOn,
   [(strBytes "/F2", (7, 0))],
   [(none, latin1 ucatC []), (some (7, 0), mapNumericRange ucatC 0xC0 0xC1)],
   fun _ => 0, fun _ => 0⟩

/-- A `ToUnicode` CMap whose bfrange destination list holds two destinations
for a three-code range, with a further hex token after the bracket group. -/
def tuStreamC8 : List Nat :=
  strBytes
    "beginbfrange <0000> <0002> [<0041> <0042>] <0005> <0006> <0043> endbfrange"

/-- With text and path mangling disabled, every success of the per-operator
transform returns the operand bytes unchanged. -/
theorem tfActual_id_off {env : Env} (hT : env.cfg.mangleText = false)
    (hP : env.cfg.manglePaths = false) (s : MState) (o p : List Nat)
    (s' : MState) (o' : List Nat) (h : tfActual env s o p = some (s', o')) :
    o' = o := by
  rw [tfActual] at h
  split at h
  · split at h
    · exact Option.noConfusion h
    · split at h
      · exact Option.noConfusion h
      · split at h <;> (cases Option.some.inj h; rfl)
  · split at h
    · rw [mangleText, if_pos (by simp [hT])] at h
      cases Option.some.inj h; rfl
    · split at h
      · cases Option.some.inj h; rfl
      · split at h
        · rw [manglePath, if_pos (by simp [hP])] at h
          rw [Option.map_some'] at h
          cases Option.some.inj h; rfl
        · cases Option.some.inj h; rfl

/-- Per-character form of the category-invariance statement: every
substituted block recorded by `subPieces` is a single code point of the
category of the character it replaces. -/
theorem subPieces_substituted {ucat : Nat → Cat} {m : CharCats}
    (hw : WellCat ucat m) (hf : latinFacts ucat) (rnd : Nat → Nat) :
    ∀ (text : List Nat) (k : Nat), ∀ p ∈ subPieces ucat m rnd text k,
      substitutable ucat m p.1 = true →
      ∃ d, p.2 = [d] ∧ ucat d = ucat p.1 := by
  intro text
  induction text with
  | nil => intro k p hp; exact absurd hp (List.not_mem_nil p)
  | cons c rest ih =>
    intro k p hp hs
    rw [subPieces] at hp
    rcases List.mem_cons.mp hp with rfl | hp
    · exact subChar_substituted hw hf hs rnd k
    · exact ih _ p hp hs

/-- A successful `map_charset` yields a well-formed category map (it ends in
`categorize_glyphs`). -/
theorem mapCharset_wellCat {ucat : Nat → Cat}
    {glyphlist : List (List Nat × Glyph)} {cs : List Nat} {m : CharCats}
    (h : mapCharset ucat glyphlist cs = .ok m) : WellCat ucat m := by
  rw [mapCharset] at h
  rcases hg : getFontGlyphs glyphlist cs with e | glyphs <;> rw [hg] at h
  · exact Except.noConfusion h
  · simp only [Except.map] at h
    cases h
    exact categorizeGlyphs_wellCat ucat _

/-- A successful `map_unicode` yields a well-formed category map: its pools
are those of `categorize_glyphs` over the mapped glyphs (the extra
`ToUnicode`/`FromUnicode` keys do not touch the pools). -/
theorem mapUnicode_wellCat {ucat : Nat → Cat} {stream : List Nat}
    {m : CharCats} (h : mapUnicode ucat stream = .ok m) : WellCat ucat m := by
  rw [mapUnicode] at h
  simp only [bind, Except.bind] at h
  split at h
  · exact Except.noConfusion h
  · split at h
    · exact Except.noConfusion h
    · cases h
      exact categorizeGlyphs_wellCat ucat _

/-! ## Claim theorems -/

/-- C9: for every page or form object, a second `mangle_content` invocation
on an object whose `objgen` is already in the visited-streams set leaves the
document state (in particular every stream's bytes) unchanged; consequently
mangling twice equals mangling once — each shared stream is mangled at most
once per run. -/
theorem C9_mangle_content_at_most_once (env : Env) (obj : XObj)
    (ds : DocState) :
    (obj.objgen ∈ ds.visited → mangleContent env obj ds = some ds) ∧
    (∀ ds', mangleContent env obj ds = some ds' →
      mangleContent env obj ds' = some ds') := by
  constructor
  · intro hmem
    by_cases hc : env.cfg.mangleContent = true
    · rw [mangleContent, if_neg (fun hn => hn hc), if_pos hmem]
    · rw [mangleContent, if_pos hc]
  · intro ds' h
    rw [mangleContent] at h
    split at h
    · next hc =>
      cases Option.some.inj h
      rw [mangleContent]
      rw [if_pos hc]
    · next hc =>
      split at h
      · cases Option.some.inj h
        rw [mangleContent, if_neg hc]
        next hv => rw [if_pos hv]
      · obtain ⟨dsf, hf, hds'⟩ := Option.map_eq_some'.mp h
        subst hds'
        rw [mangleContent, if_neg hc,
          if_pos (List.mem_append_right _ (List.mem_singleton.mpr rfl))]

/-- C9 witness: a concrete run — mangling an object twice equals mangling
it once, and a visited object is untouched. -/
theorem C9_witness :
    (⟨(7, 0), [1]⟩ : XObj).objgen ∈
        (⟨[(1, [113])], [(7, 0)],
          ⟨none, none, (612, 792), 0, 0⟩⟩ : DocState).visited ∧
      mangleContent
        ⟨fun _ => ('C', 'c'), fun q => q, fun q => q,
          ⟨true, true, true, false, false,
          1, 1, 9/10⟩, [], [(none, latin1 (fun _ => ('C', 'c')) [])],
          fun _ => 0, fun _ => 0⟩
        ⟨(7, 0), [1]⟩
        ⟨[(1, [113])], [(7, 0)], ⟨none, none, (612, 792), 0, 0⟩⟩
      = some ⟨[(1, [113])], [(7, 0)], ⟨none, none, (612, 792), 0, 0⟩⟩ := by
  refine ⟨by decide, ?_⟩
  exact (C9_mangle_content_at_most_once _ _ _).1 (by decide)

/-- C4: the output filename is the (md5) digest of the document's unique
identifier when present, else of the concatenation of all page
content-stream bytes in page order, plus the `.pdf` extension; it is
computed on the unmangled document, so it does not depend on the mangling
environment (in particular not on the random streams): two runs over the
same input produce the same name. -/
theorem C4_hash_name_deterministic (md5hex : List Nat → List Nat)
    (doc : PdfDoc) :
    (∀ (env : Env) (st0 : MState),
      (manglePdfRun md5hex env st0 doc).1 = createHashName md5hex doc) ∧
    (∀ (env1 : Env) (st1 : MState) (env2 : Env) (st2 : MState),
      (manglePdfRun md5hex env1 st1 doc).1
        = (manglePdfRun md5hex env2 st2 doc).1) ∧
    (∀ idb, doc.id = some idb →
      createHashName md5hex doc = md5hex idb ++ strBytes ".pdf") ∧
    (doc.id = none →
      createHashName md5hex doc
        = md5hex ((doc.pages.map fun p => p.contents.flatten).flatten)
          ++ strBytes ".pdf") := by
  refine ⟨fun _ _ => rfl, fun _ _ _ _ => rfl, ?_, ?_⟩
  · intro idb hid
    rw [createHashName, hid]
  · intro hid
    rw [createHashName, hid]

/-- C4 witness: concrete documents, with and without an `/ID`. -/
theorem C4_witness :
    ((⟨some [1, 2], [⟨[[84, 106]]⟩]⟩ : PdfDoc).id = some [1, 2] →
      createHashName (fun _ => strBytes "abc") ⟨some [1, 2], [⟨[[84, 106]]⟩]⟩
        = strBytes "abc" ++ strBytes ".pdf") ∧
    createHashName (fun _ => strBytes "abc") ⟨some [1, 2], [⟨[[84, 106]]⟩]⟩
      = strBytes "abc" ++ strBytes ".pdf" :=
  ⟨fun _ => ((C4_hash_name_deterministic (fun _ => strBytes "abc")
      ⟨some [1, 2], [⟨[[84, 106]]⟩]⟩).2.2.1) [1, 2] rfl,
    ((C4_hash_name_deterministic (fun _ => strBytes "abc")
      ⟨some [1, 2], [⟨[[84, 106]]⟩]⟩).2.2.1) [1, 2] rfl⟩

/-- C5: a rectangle `re` operator whose absolute width and height both
exceed the corresponding page dimension times `percent_page_keep` is
classified as background and emitted by `mangle_path` byte-for-byte
unchanged (state untouched). -/
theorem C5_background_rectangle_unchanged (sqrtQ lg : ℚ → ℚ) (cfg : Config)
    (st : PathState) (operands : List Nat) (o2 o3 : NumTok)
    (h2 : (findNums operands).get? 2 = some o2)
    (h3 : (findNums operands).get? 3 = some o3)
    (hbx : |o2.val| > st.pageDims.1 * cfg.percentPageKeep)
    (hby : |o3.val| > st.pageDims.2 * cfg.percentPageKeep) :
    manglePath sqrtQ lg cfg st operands (strBytes "re")
      = some (st, operands) := by
  rw [manglePath]
  split
  · rfl
  · rw [if_neg (by decide), if_neg (by decide), if_neg (by decide),
      if_neg (by decide), if_pos rfl]
    have hbg : isBackgroundLine cfg st.pageDims |o2.val| |o3.val| = true := by
      rw [isBackgroundLine]
      exact decide_eq_true (Or.inr (Or.inr ⟨hbx, hby⟩))
    simp only [h2, h3, hbg]
    rfl

/-- C5 witness: `10 10 600 780 re` on a 612×792 page with
`percent_page_keep = 0.9`. -/
theorem C5_witness :
    (findNums (strBytes "10 10 600 780 ")).get? 2
        = some ⟨6, 9, 600⟩ ∧
      manglePath (fun q => q) (fun q => q)
        ⟨true, true, true, false, false, 1, 1/20, 9/10⟩
        ⟨none, (612, 792), fun _ => 0, 0⟩
        (strBytes "10 10 600 780 ") (strBytes "re")
      = some (⟨none, (612, 792), fun _ => 0, 0⟩,
          strBytes "10 10 600 780 ") := by
  have hspans : findNumSpans (strBytes "10 10 600 780 ")
      = [(0, 2), (3, 5), (6, 9), (10, 13)] := by decide
  have hv2 : parseNum (((strBytes "10 10 600 780 ").take 9).drop 6) = 600 := by
    have h : ((strBytes "10 10 600 780 ").take 9).drop 6 = [54, 48, 48] := by
      decide
    rw [h]
    norm_num [parseNum, List.takeWhile, List.dropWhile, isDigitB, List.foldl]
  have hv3 : parseNum (((strBytes "10 10 600 780 ").take 13).drop 10)
      = 780 := by
    have h : ((strBytes "10 10 600 780 ").take 13).drop 10 = [55, 56, 48] := by
      decide
    rw [h]
    norm_num [parseNum, List.takeWhile, List.dropWhile, isDigitB, List.foldl]
  have h2 : (findNums (strBytes "10 10 600 780 ")).get? 2
      = some ⟨6, 9, 600⟩ := by
    rw [findNums, hspans]
    simp only [List.map_cons, List.map_nil, List.get?]
    rw [hv2]
  have h3 : (findNums (strBytes "10 10 600 780 ")).get? 3
      = some ⟨10, 13, 780⟩ := by
    rw [findNums, hspans]
    simp only [List.map_cons, List.map_nil, List.get?]
    rw [hv3]
  refine ⟨h2, ?_⟩
  exact C5_background_rectangle_unchanged _ _ _ _ _ ⟨6, 9, 600⟩ ⟨10, 13, 780⟩
    h2 h3 (by norm_num) (by norm_num)

/-- C2 (amended): the scanner decomposes every content stream into
`(operand_bytes, operator)` tokens that cover the input with no gaps, in
original order; and when text and path mangling are disabled — so every
per-operator transform is the identity on the operand bytes — a completed
`mangle_stream` run writes out the input stream byte-for-byte.  (The
unconditional length clause of the original claim fails: an enabled text
substitution can change the UTF-8 byte length, see the counterexample.) -/
theorem C2_token_cover_and_identity :
    (∀ input : List Nat,
      tokensJoin (scanTokens input).1 ++ (scanTokens input).2 = input) ∧
    (∀ env : Env, env.cfg.mangleText = false → env.cfg.manglePaths = false →
      ∀ (st : MState) (input out : List Nat),
        mangleStream env st input = some out → out = input) := by
  refine ⟨scanTokens_cover, ?_⟩
  intro env hT hP st input out h
  exact mangleStreamG_id (fun s o p s' o' => tfActual_id_off hT hP s o p s' o')
    st input out h

/-- C2 counterexample: with text mangling enabled and a font whose
substitution pool holds two-byte UTF-8 letters, `mangle_stream` returns a
17-byte stream for a 16-byte input — the written output does not have the
original byte length. -/
theorem C2_counterexample :
    (mangleStream envC2 mst0 (strBytes "/F2 9 Tf (B) Tj\n")).map List.length
        = some 17 ∧
    (strBytes "/F2 9 Tf (B) Tj\n").length = 16 := by
  exact ⟨by decide, by decide⟩

/-- C2 witness: token coverage of a concrete stream, and a concrete
identity run with mangling disabled. -/
theorem C2_witness :
    (tokensJoin (scanTokens (strBytes "(A) Tj ")).1
        ++ (scanTokens (strBytes "(A) Tj ")).2 = strBytes "(A) Tj ") ∧
    mangleStream envOff mst0 (strBytes "(A) Tj ")
        = some (strBytes "(A) Tj ") ∧
    strBytes "(A) Tj " = strBytes "(A) Tj " := by
  have h : mangleStream envOff mst0 (strBytes "(A) Tj ")
      = some (strBytes "(A) Tj ") := by decide
  exact ⟨C2_token_cover_and_identity.1 (strBytes "(A) Tj "), h,
    C2_token_cover_and_identity.2 envOff rfl rfl mst0 _ _ h⟩

/-- C1 (amended): `mangle_stream` preserves the total byte length whenever
every per-operator rewrite preserves the operand byte length; and
`replace_bytes` does preserve the byte length (and succeeds) whenever the
matched literal-string spans and the map's substitution pools are ASCII.
(Unconditionally the original claim fails: a non-ASCII substitute changes
the UTF-8 byte length, see the counterexample.) -/
theorem C1_length_invariance_conditional :
    (∀ env : Env,
      (∀ (s : MState) (o p : List Nat) (s' : MState) (o' : List Nat),
        tfActual env s o p = some (s', o') → o'.length = o.length) →
      ∀ (st : MState) (input out : List Nat),
        mangleStream env st input = some out →
        out.length = input.length) ∧
    (∀ (ucat : Nat → Cat) (m : CharCats), WellCat ucat m → latinFacts ucat →
      AsciiPools m → ∀ (rnd : Nat → Nat) (text : List Nat) (k : Nat),
      (∀ se ∈ findParens text, ∀ b ∈ (text.take se.2).drop se.1, b < 0x80) →
      ∃ out k', replaceBytes ucat m rnd text k = some (out, k') ∧
        out.length = text.length) := by
  constructor
  · intro env hlen st input out h
    exact mangleStreamG_length hlen st input out h
  · intro ucat m hw hf ha rnd text k hin
    exact replaceBytes_length hw hf ha rnd text k hin

/-- C1 counterexample: a 16-byte stream whose only shown glyph is replaced
from a Latin-1 pool; the substitute occupies two UTF-8 bytes, so the
mangled stream has 17 bytes — `len(mangle(stream)) ≠ len(stream)`. -/
theorem C1_counterexample :
    (mangleStream envC1 mst0 (strBytes "/F1 9 Tf (A) Tj\n")).map List.length
        = some 17 ∧
    (strBytes "/F1 9 Tf (A) Tj\n").length = 16 := by
  exact ⟨by decide, by decide⟩

/-- C1 witness: a concrete length-preserving run, and a concrete ASCII
`replace_bytes` length-preservation instance. -/
theorem C1_witness :
    mangleStream envOff mst0 (strBytes "(B) Tj ")
        = some (strBytes "(B) Tj ") ∧
    (strBytes "(B) Tj ").length = (strBytes "(B) Tj ").length ∧
    (∃ out k', replaceBytes ucatC (latin1 ucatC []) (fun _ => 0)
        (strBytes "(A)") 0 = some (out, k') ∧
      out.length = (strBytes "(A)").length) := by
  have h : mangleStream envOff mst0 (strBytes "(B) Tj ")
      = some (strBytes "(B) Tj ") := by decide
  refine ⟨h, ?_, ?_⟩
  · exact C1_length_invariance_conditional.1 envOff
      (fun s o p s' o' he => by
        rw [@tfActual_id_off envOff rfl rfl s o p s' o' he])
      mst0 _ _ h
  · exact C1_length_invariance_conditional.2 ucatC (latin1 ucatC [])
      (by decide) (by decide) (by decide) (fun _ => 0) (strBytes "(A)") 0
      (by decide)

/-- The correctly-rounded IEEE-double `math.log10` at the two points where
the concrete C3 runs below evaluate it: CPython's
`log10(999999999999999.0)` returns exactly `15.0` (the exact value
`14.9999999999999999956…` rounds up across the integer — verified against
CPython), and `log10(2.386)` returns `0.37766…` (any value with integer
part `0` is interchangeable after the `int()` truncation). -/
def log10C : ℚ → ℚ := fun q =>
  if q = 999999999999999 then 15 else 377/1000

/-- C3 (amended): `tweak_num(num, max_tweak, width)` returns exactly
`width` bytes for every original value representable without an added
integer digit, PROVIDED the source's float-`log10` digit count
`int(log10(abs(num))) + 1` agrees with the exact decimal digit count of
the original.  The proviso is necessary: the double `log10` can round up
across a power of ten (e.g. at `999999999999999` it returns exactly
`15.0`, giving `digits = 16`), and then the integer branch clamps `lower`
to `10^digits_minus_1 + 1` above the original and the returned token is
wider than `width` — see the counterexample. -/
theorem C3_tweak_num_width (lg : ℚ → ℚ) (num mt t : ℚ) (width : Nat)
    (hlg : pyLog10Digits lg num = pyDigits num)
    (hmt : 0 ≤ mt) (ht0 : 0 ≤ t) (ht1 : t ≤ 1)
    (hw : pyDigits num + (if num < 0 then 1 else 0) ≤ width)
    (hnum : 1 ≤ (width : Int) - pyDigits num
        - (if num < 0 then 1 else 0) - 1 →
      |num| ≤ 10 ^ pyDigits num - 1 / 10 ^
        ((width : Int) - pyDigits num
          - (if num < 0 then 1 else 0) - 1).toNat) :
    (tweakNum lg num mt t width).length = width := by
  rw [tweakNum, hlg]
  exact tweakNum_length num mt t width hmt ht0 ht1 hw hnum

/-- C3 counterexample: at `num = 999999999999999` (fifteen digits, exactly
representable as an IEEE double) the source computes
`digits = int(log10(abs(num))) + 1 = 16`, takes the integer branch with
`lower = 10^15 + 1`, and `tweak_num(999999999999999, 18, 15)` returns a
16-byte token — the width invariance of the original claim fails although
the original value fits in 15 bytes. -/
theorem C3_counterexample :
    (tweakNum log10C (999999999999999 : ℚ) 18 (1/2) 15).length = 16 := by
  have habs : |(999999999999999 : ℚ)| = 999999999999999 :=
    abs_of_nonneg (by norm_num)
  have hlg : pyLog10Digits log10C (999999999999999 : ℚ) = 16 := by
    rw [pyLog10Digits, habs, if_pos (by norm_num)]
    simp only [log10C]
    rw [if_pos trivial, pyIntTrunc, if_pos (by norm_num)]
    have h15 : ⌊(15 : ℚ)⌋ = 15 := by
      rw [Int.floor_eq_iff]
      constructor <;> norm_num
    rw [h15]
    decide
  rw [tweakNum, hlg]
  have hpos : (0 : ℚ) ≤ 999999999999999 := by norm_num
  have hnn : ¬ (999999999999999 : ℚ) < 0 := not_lt.mpr hpos
  simp only [tweakNumD, if_pos hpos, if_neg hnn, Nat.cast_zero]
  rw [if_pos (by norm_num)]
  have hval : max ((10 : ℚ) ^ (16 - 1) + 1) ((999999999999999 : ℚ) - 18)
      + (min ((999999999999999 : ℚ) + 18) ((10 : ℚ) ^ 16 - 1)
         - max ((10 : ℚ) ^ (16 - 1) + 1) ((999999999999999 : ℚ) - 18))
        * (1/2)
      = 1000000000000009 := by
    norm_num [max_def, min_def]
  rw [hval]
  have htr : pyIntTrunc (1000000000000009 : ℚ) = 1000000000000009 := by
    rw [pyIntTrunc, if_pos (by norm_num), Int.floor_eq_iff]
    constructor <;> norm_num
  rw [htr]
  decide

/-- C3 witness: `tweak_num(-2.386, max_tweak=18, width=7)` returns a
7-byte token (for the midpoint uniform sample; the theorem covers every
sample) — here the double `log10` digit count agrees with the exact one. -/
theorem C3_witness :
    (tweakNum log10C (-2386/1000 : ℚ) 18 (1/2) 7).length = 7 := by
  have habs : |(-2386/1000 : ℚ)| = 2386/1000 := by
    rw [abs_of_neg (by norm_num)]
    norm_num
  have hfl : ⌊|(-2386/1000 : ℚ)|⌋ = 2 := by
    rw [habs, Int.floor_eq_iff]
    constructor <;> norm_num
  have hpd : pyDigits (-2386/1000 : ℚ) = 1 := by
    rw [pyDigits, if_pos (by rw [habs]; norm_num), hfl]
    decide
  have hlg : pyLog10Digits log10C (-2386/1000 : ℚ) = 1 := by
    rw [pyLog10Digits, habs, if_pos (by norm_num)]
    simp only [log10C]
    rw [if_neg (by norm_num), pyIntTrunc, if_pos (by norm_num)]
    have h0 : ⌊(377/1000 : ℚ)⌋ = 0 := by
      rw [Int.floor_eq_iff]
      constructor <;> norm_num
    rw [h0]
    decide
  have hneg : (-2386/1000 : ℚ) < 0 := by norm_num
  refine C3_tweak_num_width log10C (-2386/1000 : ℚ) 18 (1/2) 7
    (hlg.trans hpd.symm) (by norm_num) (by norm_num) (by norm_num) ?_ ?_
  · rw [hpd, if_pos hneg]
    norm_num
  · intro _
    rw [hpd, habs, if_pos hneg]
    have htn : ((7 : ℕ) : ℤ) - ((1 : ℕ) : ℤ) - 1 - 1 = 4 := by norm_num
    rw [htn]
    have ht4 : Int.toNat 4 = 4 := rfl
    rw [ht4]
    norm_num

/-- C6: for every character that `replace_text` substitutes (does not pass
through), the substitute is a single code point whose Unicode general
category equals the original's — for every category map the resolvers build
(`categorize_glyphs`, `map_charset`, `map_unicode`, `map_numeric_range`,
and the baseline `LATIN_1` map): each of those maps is well-formed, and on
well-formed maps every substituted block in the per-character decomposition
of the output keeps the category. -/
theorem C6_substitution_category_invariance (ucat : Nat → Cat)
    (hf : latinFacts ucat) :
    (∀ m : CharCats, WellCat ucat m →
      ∀ (rnd : Nat → Nat) (text : List Nat) (k : Nat),
      (replaceText ucat m rnd text k).1
          = ((subPieces ucat m rnd text k).map Prod.snd).flatten ∧
      ∀ p ∈ subPieces ucat m rnd text k,
        substitutable ucat m p.1 = true →
        ∃ d, p.2 = [d] ∧ ucat d = ucat p.1) ∧
    (∀ glyphs, WellCat ucat (categorizeGlyphs ucat glyphs)) ∧
    (∀ glyphlist cs m, mapCharset ucat glyphlist cs = .ok m →
      WellCat ucat m) ∧
    (∀ stream m, mapUnicode ucat stream = .ok m → WellCat ucat m) ∧
    (∀ lo hi, WellCat ucat (mapNumericRange ucat lo hi)) ∧
    (∀ src, WellCat ucat (latin1 ucat src)) := by
  refine ⟨?_, categorizeGlyphs_wellCat ucat,
    fun glyphlist cs m h => mapCharset_wellCat h,
    fun stream m h => mapUnicode_wellCat h,
    mapNumericRange_wellCat ucat,
    fun src => latin1_wellCat hf src⟩
  intro m hw rnd text k
  exact ⟨replaceText_eq_subPieces ucat m rnd text k,
    subPieces_substituted hw hf rnd text k⟩

/-- C6 witness: a concrete substitution — `B` is replaced by a single
uppercase letter (the same general category `Lu`). -/
theorem C6_witness :
    ((replaceText ucatC (latin1 ucatC []) (fun _ => 0) [66] 0).1
        = ((subPieces ucatC (latin1 ucatC []) (fun _ => 0) [66] 0).map
            Prod.snd).flatten) ∧
    ∃ d, (66, subChar ucatC (latin1 ucatC []) (fun _ => 0) 66 0).2 = [d] ∧
      ucatC d = ucatC 66 := by
  have h := (C6_substitution_category_invariance ucatC (by decide)).1
    (latin1 ucatC []) (by decide) (fun _ => 0) [66] 0
  refine ⟨h.1, ?_⟩
  exact h.2 (66, subChar ucatC (latin1 ucatC []) (fun _ => 0) 66 0)
    (by rw [subPieces]; exact List.mem_cons_self _ _) (by decide)

/-- C7: characters whose Unicode general category begins with punctuation,
mark, separator, or other (`PASS_CATS`) are never altered: they are not
substitutable, their substitution block is the character itself, and
`replace_text` copies them to the output at the same position. -/
theorem C7_pass_through_unaltered (ucat : Nat → Cat) (m : CharCats)
    (hw : WellCat ucat m) (hf : latinFacts ucat) (rnd : Nat → Nat) :
    (∀ c k : Nat, (ucat c).1 ∈ passCats →
      substitutable ucat m c = false ∧ subChar ucat m rnd c k = [c]) ∧
    (∀ (text : List Nat) (k i c : Nat), text[i]? = some c →
      (ucat c).1 ∈ passCats →
      (replaceText ucat m rnd text k).1[i]? = some c) := by
  refine ⟨fun c k hp => ⟨?_, subChar_pass hp rnd k⟩,
    replaceText_pass_position hw hf rnd⟩
  rw [substitutable, if_pos hp]

/-- C7 witness: the full stop `.` (category `Po`) is passed through — not
substitutable, and still at position 1 after a run that substitutes the
letter before it. -/
theorem C7_witness :
    (substitutable ucatC (latin1 ucatC []) 46 = false ∧
      subChar ucatC (latin1 ucatC []) (fun _ => 0) 46 0 = [46]) ∧
    (replaceText ucatC (latin1 ucatC []) (fun _ => 0) [66, 46] 0).1[1]?
      = some 46 := by
  have h := C7_pass_through_unaltered ucatC (latin1 ucatC [])
    (by decide) (by decide) (fun _ => 0)
  exact ⟨h.1 46 0 (by decide), h.2 [66, 46] 0 1 46 (by decide) (by decide)⟩

/-- C8 (amended): when a bfrange per-code destination list holds fewer
destinations than the range has codes, the parse raises `IndexError` as
soon as the next hex token lies beyond the bracket group; and
`mangle_objects` catches only `AttributeError`, so that `IndexError`
propagates and aborts the whole run — the font does NOT fall back to the
baseline Latin pool (the original claim's fallback clause fails, see the
counterexample). -/
theorem C8_bfrange_exhaustion_aborts :
    (∀ (fb : List Nat) (rest : List (List Nat)) (it : List RMatch)
        (sqm mtc : RMatch) (tu : List (List Nat × Glyph)),
      sqm.e < mtc.e →
      bfrangeListBranch (fb :: rest) (some mtc) it sqm tu
        = .error .indexError) ∧
    (∀ (ucat : Nat → Cat) (glyphlist : List (List Nat × Glyph))
        (latinChars : List Nat) (f : FontObj) (rest : List PdfObject)
        (fm : FontMap) (e : PyErr),
      addFontMap ucat glyphlist latinChars f fm = .error e →
      e ≠ .attributeError →
      mangleObjects ucat glyphlist latinChars (.font f :: rest) fm
        = .error e) := by
  constructor
  · intro fb rest it sqm mtc tu h
    rw [bfrangeListBranch, if_pos h]
  · intro ucat glyphlist latinChars f rest fm e h he
    rw [mangleObjects, h]
    cases e
    · rfl
    · exact absurd rfl he
    · rfl
    · rfl
    · rfl
    · rfl

/-- C8 counterexample: a font whose `ToUnicode` CMap maps a three-code
bfrange to a two-destination list followed by another range; processing it
through the font sweep aborts the run with `IndexError` — no Latin
fallback, and the error is not contained. -/
theorem C8_counterexample :
    mangleObjects ucatC [] []
        [.font ⟨(1, 0), none, some tuStreamC8, none, none⟩] []
      = .error .indexError := by decide

/-- C8 witness: a concrete short destination list raises `IndexError`, and
a concrete non-`AttributeError` parse failure aborts the sweep. -/
theorem C8_witness :
    (bfrangeListBranch [[48, 48, 48, 48]]
        (some ⟨20, 26, [48, 48, 52, 51]⟩) [] ⟨8, 14, []⟩ []
      = .error .indexError) ∧
    mangleObjects ucatC [] []
        [.font ⟨(2, 0), none,
          some (strBytes "beginbfchar <0041> endbfchar"), none, none⟩] []
      = .error .indexError := by
  refine ⟨C8_bfrange_exhaustion_aborts.1 _ _ _ _ _ _ (by decide), ?_⟩
  exact C8_bfrange_exhaustion_aborts.2 ucatC [] [] _ [] [] .indexError
    (by decide) (by decide)

/-- C10: `replace_text` returns a string with exactly as many characters as
its input, for every category map produced by `categorize_glyphs`,
`map_charset`, `map_unicode`, `map_numeric_range`, or the baseline
`LATIN_1` map — every substitution block is a single character. -/
theorem C10_replace_text_length (ucat : Nat → Cat) (hf : latinFacts ucat) :
    (∀ (glyphs : List Glyph) (rnd : Nat → Nat) (text : List Nat) (k : Nat),
      (replaceText ucat (categorizeGlyphs ucat glyphs) rnd text k).1.length
        = text.length) ∧
    (∀ glyphlist cs m, mapCharset ucat glyphlist cs = .ok m →
      ∀ (rnd : Nat → Nat) (text : List Nat) (k : Nat),
      (replaceText ucat m rnd text k).1.length = text.length) ∧
    (∀ stream m, mapUnicode ucat stream = .ok m →
      ∀ (rnd : Nat → Nat) (text : List Nat) (k : Nat),
      (replaceText ucat m rnd text k).1.length = text.length) ∧
    (∀ (lo hi : Nat) (rnd : Nat → Nat) (text : List Nat) (k : Nat),
      (replaceText ucat (mapNumericRange ucat lo hi) rnd text k).1.length
        = text.length) ∧
    (∀ (src : List Nat) (rnd : Nat → Nat) (text : List Nat) (k : Nat),
      (replaceText ucat (latin1 ucat src) rnd text k).1.length
        = text.length) := by
  refine ⟨fun glyphs rnd text k =>
      replaceText_length (categorizeGlyphs_wellCat ucat glyphs) hf rnd text k,
    fun glyphlist cs m h rnd text k =>
      replaceText_length (mapCharset_wellCat h) hf rnd text k,
    fun stream m h rnd text k =>
      replaceText_length (mapUnicode_wellCat h) hf rnd text k,
    fun lo hi rnd text k =>
      replaceText_length (mapNumericRange_wellCat ucat lo hi) hf rnd text k,
    fun src rnd text k =>
      replaceText_length (latin1_wellCat hf src) hf rnd text k⟩

/-- C10 witness: concrete length preservation under the baseline Latin map
and under a numeric-range map. -/
theorem C10_witness :
    (replaceText ucatC (latin1 ucatC []) (fun _ => 0) [66, 97, 48] 0).1.length
        = 3 ∧
    (replaceText ucatC (mapNumericRange ucatC 48 57) (fun _ => 0)
        [53] 0).1.length = 1 := by
  have h := C10_replace_text_length ucatC (by decide)
  exact ⟨h.2.2.2.2 [] (fun _ => 0) [66, 97, 48] 0,
    h.2.2.2.1 48 57 (fun _ => 0) [53] 0⟩

end PdfMangler
